import Mathlib

/-!
Verification of the BitCask storage engine (`src/storage/engine/bitcask.rs`).

The development is a shallow embedding of the engine:

* byte strings are `List Nat` (each element a byte value),
* the on-disk log file is a byte string, entries encoded exactly as in
  `Log::write_entry` (big-endian `u32` key length, big-endian `i32` value
  marker, key bytes, value bytes),
* the in-memory `KeyDir` (`BTreeMap<Vec<u8>, (u64, u32)>`) is a list of
  `(key, value_pos, value_len)` records kept sorted by byte-wise
  lexicographic key order; `kdInsert`/`kdRemove`/`kdGet` mirror the
  `BTreeMap` operations,
* machine-integer casts are modelled with explicit `% 2 ^ 32` where the Rust
  code casts to `u32`/`i32`; file offsets use exact naturals (`u64`
  arithmetic is exact for every file the OS can hold).

Fallible file reads are modelled with `Option`.
-/

set_option maxRecDepth 8000

/-- Raw byte strings, as stored in keys, values and the log file. -/
abbrev Bytes := List Nat

/-- Byte-wise (unsigned) lexicographic strict order on byte strings, the key
order of the Rust `BTreeMap<Vec<u8>, _>`. -/
def bytesLt : Bytes → Bytes → Bool
  | _, [] => false
  | [], _ :: _ => true
  | a :: as, b :: bs => if a < b then true else if a = b then bytesLt as bs else false

theorem bytesLt_irrefl (a : Bytes) : bytesLt a a = false := by
  induction a with
  | nil => rfl
  | cons x xs ih => simp [bytesLt, ih]

theorem bytesLt_asymm : ∀ {a b : Bytes}, bytesLt a b = true → bytesLt b a = false
  | _, [], h => by simp [bytesLt] at h
  | [], _ :: _, _ => by rfl
  | a :: as, b :: bs, h => by
    simp only [bytesLt] at h ⊢
    by_cases hab : a < b
    · have : ¬ b < a := Nat.lt_asymm hab
      have : b ≠ a := Nat.ne_of_gt hab
      simp [*]
    · by_cases hba : a = b
      · subst hba
        simp only [if_neg (Nat.lt_irrefl a), if_pos rfl] at h ⊢
        exact bytesLt_asymm h
      · simp [hab, hba] at h

theorem bytesLt_trans : ∀ {a b c : Bytes},
    bytesLt a b = true → bytesLt b c = true → bytesLt a c = true
  | _, _, [], _, h => by simp [bytesLt] at h
  | _, [], _ :: _, h, _ => by simp [bytesLt] at h
  | [], _ :: _, _ :: _, _, _ => rfl
  | a :: as, b :: bs, c :: cs, h₁, h₂ => by
    simp only [bytesLt] at h₁ h₂ ⊢
    by_cases hab : a < b
    · by_cases hbc : b < c
      · simp [Nat.lt_trans hab hbc]
      · by_cases hbc' : b = c
        · subst hbc'; simp [hab]
        · simp [hbc, hbc'] at h₂
    · by_cases hab' : a = b
      · subst hab'
        simp only [if_neg (Nat.lt_irrefl a), if_pos rfl] at h₁
        by_cases hbc : a < c
        · simp [hbc]
        · by_cases hbc' : a = c
          · subst hbc'
            simp only [if_neg (Nat.lt_irrefl a), if_pos rfl] at h₂ ⊢
            exact bytesLt_trans h₁ h₂
          · simp [hbc, hbc'] at h₂
      · simp [hab, hab'] at h₁

theorem bytesLt_of_not_lt : ∀ {a b : Bytes},
    bytesLt a b = false → a ≠ b → bytesLt b a = true
  | [], [], _, hne => absurd rfl hne
  | _ :: _, [], _, _ => rfl
  | [], _ :: _, h, _ => by cases h
  | a :: as, b :: bs, h, hne => by
    simp only [bytesLt] at h ⊢
    by_cases hab : a < b
    · simp [hab] at h
    · by_cases hab' : a = b
      · subst hab'
        simp only [if_neg (Nat.lt_irrefl a), if_pos rfl] at h ⊢
        refine bytesLt_of_not_lt h ?_
        intro heq; exact hne (by rw [heq])
      · have : b < a := Nat.lt_of_le_of_ne (Nat.le_of_not_lt hab) (fun h => hab' h.symm)
        simp [this]

theorem bytesLt_ne {a b : Bytes} (h : bytesLt a b = true) : a ≠ b := by
  intro hEq; subst hEq; rw [bytesLt_irrefl] at h; cases h

/-- The in-memory keydir: `(key, (value_pos, value_len))` records, ordered by
`bytesLt` on keys.  This is the list view of the Rust
`BTreeMap<Vec<u8>, (u64, u32)>`. -/
abbrev KeyDir := List (Bytes × Nat × Nat)

/-- Lookup in the keydir (`BTreeMap::get`). -/
def kdGet : KeyDir → Bytes → Option (Nat × Nat)
  | [], _ => none
  | e :: rest, k => if e.1 = k then some e.2 else kdGet rest k

/-- Order-preserving insertion (`BTreeMap::insert`): replaces the record for an
existing key, otherwise inserts at the sorted position. -/
def kdInsert : KeyDir → Bytes → Nat × Nat → KeyDir
  | [], k, v => [(k, v)]
  | e :: rest, k, v =>
    if bytesLt k e.1 then (k, v) :: e :: rest
    else if k = e.1 then (k, v) :: rest
    else e :: kdInsert rest k v

/-- Removal (`BTreeMap::remove`); removing an absent key is a no-op. -/
def kdRemove : KeyDir → Bytes → KeyDir
  | [], _ => []
  | e :: rest, k => if e.1 = k then rest else e :: kdRemove rest k

/-- The keydir is sorted strictly ascending by key, the `BTreeMap` invariant. -/
def kdSorted (kd : KeyDir) : Prop :=
  List.Pairwise (fun a b : Bytes × Nat × Nat => bytesLt a.1 b.1 = true) kd

theorem kdGet_insert_self (kd : KeyDir) (k : Bytes) (v : Nat × Nat) :
    kdGet (kdInsert kd k v) k = some v := by
  induction kd with
  | nil => simp [kdInsert, kdGet]
  | cons e rest ih =>
    by_cases h₁ : bytesLt k e.1
    · simp [kdInsert, h₁, kdGet]
    · by_cases h₂ : k = e.1
      · rw [kdInsert, if_neg h₁, if_pos h₂, kdGet, if_pos rfl]
      · have hne : e.1 ≠ k := fun h => h₂ h.symm
        simp [kdInsert, h₁, h₂, kdGet, hne, ih]

theorem kdGet_insert_ne (kd : KeyDir) (k k' : Bytes) (v : Nat × Nat)
    (h : k' ≠ k) : kdGet (kdInsert kd k v) k' = kdGet kd k' := by
  have hkk : ¬ (k = k') := fun hh => h hh.symm
  induction kd with
  | nil => simp [kdInsert, kdGet, hkk]
  | cons e rest ih =>
    by_cases h₁ : bytesLt k e.1
    · simp [kdInsert, h₁, kdGet, hkk]
    · by_cases h₂ : k = e.1
      · have h₃ : ¬ (e.1 = k') := fun hh => hkk (h₂.trans hh)
        simp [kdInsert, h₁, h₂, kdGet, hkk, h₃, bytesLt_irrefl]
      · simp [kdInsert, h₁, h₂, kdGet, ih]

theorem kdGet_remove_ne (kd : KeyDir) (k k' : Bytes) (h : k' ≠ k) :
    kdGet (kdRemove kd k) k' = kdGet kd k' := by
  induction kd with
  | nil => simp [kdRemove, kdGet]
  | cons e rest ih =>
    by_cases h₁ : e.1 = k
    · have h₂ : ¬ (e.1 = k') := fun hh => h (hh.symm.trans h₁)
      simp [kdRemove, h₁, kdGet, h₂, Ne.symm h]
    · by_cases h₂ : e.1 = k'
      · simp [kdRemove, h₁, kdGet, h₂, h]
      · simp [kdRemove, h₁, kdGet, h₂, ih]

theorem kdGet_eq_none_of_forall_ne (kd : KeyDir) (k : Bytes)
    (h : ∀ e ∈ kd, e.1 ≠ k) : kdGet kd k = none := by
  induction kd with
  | nil => rfl
  | cons e rest ih =>
    simp only [kdGet, if_neg (h e (by simp))]
    exact ih fun e' he' => h e' (by simp [he'])

theorem kdGet_remove_self (kd : KeyDir) (k : Bytes) (hs : kdSorted kd) :
    kdGet (kdRemove kd k) k = none := by
  induction kd with
  | nil => rfl
  | cons e rest ih =>
    rcases List.pairwise_cons.mp hs with ⟨hhead, htail⟩
    by_cases h₁ : e.1 = k
    · subst h₁
      simp only [kdRemove, if_pos rfl]
      exact kdGet_eq_none_of_forall_ne rest e.1
        (fun e' he' => (bytesLt_ne (hhead e' he')).symm)
    · simp [kdRemove, h₁, kdGet, ih htail]

theorem mem_kdInsert {kd : KeyDir} {k : Bytes} {v : Nat × Nat} {e : Bytes × Nat × Nat}
    (h : e ∈ kdInsert kd k v) : e ∈ kd ∨ e = (k, v) := by
  induction kd with
  | nil => simp [kdInsert] at h; simp [h]
  | cons e' rest ih =>
    by_cases h₁ : bytesLt k e'.1
    · simp only [kdInsert, if_pos h₁, List.mem_cons] at h
      rcases h with h | h | h
      · exact Or.inr h
      · exact Or.inl (by simp [h])
      · exact Or.inl (by simp [h])
    · by_cases h₂ : k = e'.1
      · simp only [kdInsert, if_neg h₁, if_pos h₂, List.mem_cons] at h
        rcases h with h | h
        · exact Or.inr h
        · exact Or.inl (by simp [h])
      · simp only [kdInsert, if_neg h₁, if_neg h₂, List.mem_cons] at h
        rcases h with h | h
        · exact Or.inl (by simp [h])
        · rcases ih h with h' | h'
          · exact Or.inl (by simp [h'])
          · exact Or.inr h'

theorem kdInsert_sorted {kd : KeyDir} (k : Bytes) (v : Nat × Nat)
    (hs : kdSorted kd) : kdSorted (kdInsert kd k v) := by
  induction kd with
  | nil => simp [kdInsert, kdSorted]
  | cons e rest ih =>
    rcases List.pairwise_cons.mp hs with ⟨hhead, htail⟩
    by_cases h₁ : bytesLt k e.1
    · simp only [kdInsert, if_pos h₁, kdSorted]
      refine List.pairwise_cons.mpr ⟨?_, hs⟩
      intro e' he'
      rcases List.mem_cons.mp he' with h | h
      · subst h; exact h₁
      · exact bytesLt_trans h₁ (hhead e' h)
    · by_cases h₂ : k = e.1
      · subst h₂
        simp only [kdInsert, if_neg h₁, if_pos rfl, kdSorted]
        exact List.pairwise_cons.mpr ⟨hhead, htail⟩
      · simp only [kdInsert, if_neg h₁, if_neg h₂, kdSorted]
        refine List.pairwise_cons.mpr ⟨?_, ih htail⟩
        intro e' he'
        rcases mem_kdInsert he' with h | h
        · exact hhead e' h
        · subst h
          exact bytesLt_of_not_lt (Bool.eq_false_iff.mpr (fun hh => h₁ hh)) h₂

theorem kdRemove_sublist (kd : KeyDir) (k : Bytes) : (kdRemove kd k).Sublist kd := by
  induction kd with
  | nil => simp [kdRemove]
  | cons e rest ih =>
    by_cases h₁ : e.1 = k
    · rw [kdRemove, if_pos h₁]
      exact List.sublist_cons_self e rest
    · rw [kdRemove, if_neg h₁]
      exact List.Sublist.cons₂ e ih

theorem kdRemove_sorted {kd : KeyDir} (k : Bytes) (hs : kdSorted kd) :
    kdSorted (kdRemove kd k) :=
  List.Pairwise.sublist (kdRemove_sublist kd k) hs

theorem kdInsert_of_forall_lt {kd : KeyDir} {k : Bytes} (v : Nat × Nat)
    (h : ∀ e ∈ kd, bytesLt e.1 k = true) : kdInsert kd k v = kd ++ [(k, v)] := by
  induction kd with
  | nil => simp [kdInsert]
  | cons e rest ih =>
    have he : bytesLt e.1 k = true := h e (by simp)
    have h₁ : bytesLt k e.1 = false := bytesLt_asymm he
    have h₂ : k ≠ e.1 := fun hh => by
      subst hh; rw [bytesLt_irrefl] at he; cases he
    simp only [kdInsert, h₁, Bool.false_eq_true, if_false, if_neg h₂, List.cons_append]
    rw [ih fun e' he' => h e' (by simp [he'])]

/-! ### On-disk entry format -/

/-- Big-endian byte encoding of the low 32 bits of `n`
(`u32::to_be_bytes` / `i32::to_be_bytes`). -/
def encU32 (n : Nat) : Bytes :=
  [n / 16777216 % 256, n / 65536 % 256, n / 256 % 256, n % 256]

@[simp] theorem length_encU32 (n : Nat) : (encU32 n).length = 4 := rfl

/-- Reads 4 bytes at `pos` as a big-endian 32-bit number (`read_exact` of a
4-byte buffer followed by `from_be_bytes`); `none` on end of file. -/
def readU32 (file : Bytes) (pos : Nat) : Option Nat :=
  match file.drop pos with
  | a :: b :: c :: d :: _ => some (((a * 256 + b) * 256 + c) * 256 + d)
  | _ => none

/-- Reads exactly `n` raw bytes at `pos` (`read_exact`); `none` on end of
file. -/
def readBytes (file : Bytes) (pos n : Nat) : Option Bytes :=
  if pos + n ≤ file.length then some ((file.drop pos).take n) else none

theorem readU32_at (F G : Bytes) (n : Nat) (hn : n < 4294967296) :
    readU32 (F ++ (encU32 n ++ G)) F.length = some n := by
  have hdrop : (F ++ (encU32 n ++ G)).drop F.length =
      n / 16777216 % 256 :: n / 65536 % 256 :: n / 256 % 256 :: n % 256 :: G := by
    rw [List.drop_left F (encU32 n ++ G)]; rfl
  simp only [readU32, hdrop]
  congr 1
  omega

theorem readBytes_at (F K G : Bytes) :
    readBytes (F ++ (K ++ G)) F.length K.length = some K := by
  have hdrop : (F ++ (K ++ G)).drop F.length = K ++ G :=
    List.drop_left F (K ++ G)
  have hlen : F.length + K.length ≤ (F ++ (K ++ G)).length := by
    simp [List.length_append]
  simp only [readBytes, if_pos hlen, hdrop]
  rw [List.take_left]

/-- A read of bytes lying inside a prefix is unaffected by appending. -/
theorem readBytes_append_of_le (F X : Bytes) (pos n : Nat)
    (h : pos + n ≤ F.length) :
    readBytes (F ++ X) pos n = readBytes F pos n := by
  have h' : pos + n ≤ (F ++ X).length := by
    rw [List.length_append]; omega
  have hdrop : (F ++ X).drop pos = F.drop pos ++ X :=
    List.drop_append_of_le_length (by omega)
  have htake : (F.drop pos ++ X).take n = (F.drop pos).take n :=
    List.take_append_of_le_length (by rw [List.length_drop]; omega)
  rw [readBytes, readBytes, if_pos h, if_pos h', hdrop, htake]

/-- The value bytes an entry carries: the value itself, or nothing for a
tombstone. -/
def valueBytes : Option Bytes → Bytes
  | some v => v
  | none => []

/-- Marker field of an entry: the big-endian bytes of `value.len() as i32`,
or of `-1` (`0xFFFFFFFF`) for a tombstone. -/
def markerBytes : Option Bytes → Bytes
  | some v => encU32 (v.length % 4294967296)
  | none => encU32 4294967295

/-- The byte encoding of one log entry, the four fields written in order by
`Log::write_entry`: key length (`u32` big-endian), value marker (`i32`
big-endian), key bytes, value bytes (absent for tombstones). -/
def encodeEntry (key : Bytes) (value : Option Bytes) : Bytes :=
  encU32 (key.length % 4294967296) ++ markerBytes value ++ key ++ valueBytes value

/-- Actual number of bytes an encoded entry occupies on disk. -/
def entrySize (key : Bytes) (value : Option Bytes) : Nat :=
  8 + key.length + (valueBytes value).length

theorem length_encodeEntry (key : Bytes) (value : Option Bytes) :
    (encodeEntry key value).length = entrySize key value := by
  cases value <;>
    simp [encodeEntry, markerBytes, valueBytes, entrySize, List.length_append] <;> omega

/-! ### Open-time scan (`Log::build_keydir`) -/

/-- One iteration of the `Log::build_keydir` loop: parse the entry at `pos`.
Returns the key, the value position `pos + 4 + 4 + key_len` and `some
value_len` for a marker `≥ 0`, or `none` (tombstone) for any negative marker.
The result is `none` when any read runs past end of file or the value would
extend beyond it (`UnexpectedEof`, the torn-entry case). -/
def readEntry (file : Bytes) (pos : Nat) : Option (Bytes × Nat × Option Nat) :=
  match readU32 file pos, readU32 file (pos + 4) with
  | some keyLen, some marker =>
    match readBytes file (pos + 8) keyLen with
    | some key =>
      if marker < 2147483648 then
        if pos + 8 + keyLen + marker ≤ file.length then
          some (key, pos + 8 + keyLen, some marker)
        else none
      else some (key, pos + 8 + keyLen, none)
    | none => none
  | _, _ => none

theorem readEntry_some {file : Bytes} {pos : Nat} {key : Bytes} {vp : Nat}
    {t : Option Nat} (h : readEntry file pos = some (key, vp, t)) :
    vp = pos + 8 + key.length ∧ vp ≤ file.length ∧
      ∀ l, t = some l → vp + l ≤ file.length := by
  unfold readEntry at h
  split at h
  case _ keyLen marker h₁ h₂ =>
    split at h
    case _ k' h₃ =>
      have hk : pos + 8 + keyLen ≤ file.length ∧ k'.length = keyLen := by
        unfold readBytes at h₃
        split at h₃
        case _ hc =>
          cases h₃
          refine ⟨hc, ?_⟩
          rw [List.length_take, List.length_drop]
          omega
        case _ hc => cases h₃
      split at h
      · split at h
        case _ h₅ =>
          cases h
          refine ⟨by omega, by omega, ?_⟩
          intro l hl; cases hl; omega
        case _ h₅ => cases h
      · cases h
        exact ⟨by omega, by omega, fun l hl => by cases hl⟩
    case _ h₃ => cases h
  case _ => cases h

theorem readEntry_pos_lt {file : Bytes} {pos : Nat} {key : Bytes} {vp : Nat}
    {t : Option Nat} (h : readEntry file pos = some (key, vp, t)) :
    pos + 8 ≤ vp := by
  have := (readEntry_some h).1
  omega

set_option linter.unusedVariables false in
/-- The `while pos < file_len` loop of `Log::build_keydir`.  Returns the final
keydir and the position where scanning stopped; on a torn entry the loop stops
at the entry's start position (to which the file is then truncated). -/
def buildKeydirLoop (file : Bytes) (pos : Nat) (kd : KeyDir) : KeyDir × Nat :=
  if pos < file.length then
    match hr : readEntry file pos with
    | some (key, valuePos, some valueLen) =>
        buildKeydirLoop file (valuePos + valueLen) (kdInsert kd key (valuePos, valueLen))
    | some (key, valuePos, none) =>
        buildKeydirLoop file valuePos (kdRemove kd key)
    | none => (kd, pos)
  else (kd, pos)
termination_by file.length - pos
decreasing_by
  · have := readEntry_pos_lt hr; omega
  · have := readEntry_pos_lt hr; omega

/-- `Log::build_keydir`: scan the whole file from offset 0; a torn tail is
truncated away.  Returns the keydir and the (possibly truncated) file. -/
def build_keydir (file : Bytes) : KeyDir × Bytes :=
  let r := buildKeydirLoop file 0 []
  (r.1, file.take r.2)

/-! ### The engine -/

/-- The BitCask engine: the log file contents plus the in-memory keydir. -/
structure BitCask where
  file : Bytes
  keydir : KeyDir
deriving DecidableEq

/-- `Log::read_value`: seek to `value_pos` and `read_exact` `value_len`
bytes; `none` when the read runs past end of file. -/
def read_value (file : Bytes) (value_pos value_len : Nat) : Option Bytes :=
  readBytes file value_pos value_len

/-- `Log::write_entry`: append one entry at the end of the file; returns the
new file together with the entry's position and length.  The length is the
`u32` expression `4 + 4 + key_len + value_len` (wrapping, i.e. `% 2^32`,
matching release-mode Rust); the position (`u64`) is the former file length. -/
def write_entry (file : Bytes) (key : Bytes) (value : Option Bytes) :
    Bytes × Nat × Nat :=
  let key_len := key.length % 4294967296
  let value_len := (valueBytes value).length % 4294967296
  let len := (4 + 4 + key_len + value_len) % 4294967296
  (file ++ encodeEntry key value, file.length, len)

/-- `BitCask::new` (open): construct the log and scan it into a keydir. -/
def BitCask.new (file : Bytes) : BitCask :=
  let r := build_keydir file
  { file := r.2, keydir := r.1 }

/-- `BitCask::set`: append the entry, then insert
`key → (pos + len - value_len, value_len)` into the keydir.  The subtraction
is `u64` arithmetic; it is exact whenever `len ≥ value_len`, which holds in
every state the theorems below visit. -/
def BitCask.set (db : BitCask) (key value : Bytes) : BitCask :=
  let r := write_entry db.file key (some value)
  let value_len := value.length % 4294967296
  { file := r.1, keydir := kdInsert db.keydir key (r.2.1 + r.2.2 - value_len, value_len) }

/-- `BitCask::delete`: append a tombstone entry, then remove the key. -/
def BitCask.delete (db : BitCask) (key : Bytes) : BitCask :=
  let r := write_entry db.file key none
  { file := r.1, keydir := kdRemove db.keydir key }

/-- `BitCask::get`: keydir lookup followed by a random read of the value
bytes.  The outer `Option` is the I/O result: `none` is a failed read. -/
def BitCask.get (db : BitCask) (key : Bytes) : Option (Option Bytes) :=
  match kdGet db.keydir key with
  | some pl =>
    match read_value db.file pl.1 pl.2 with
    | some v => some (some v)
    | none => none
  | none => some none

/-- One end of a scan range (`std::ops::Bound<Vec<u8>>`). -/
inductive ScanBound
  | unbounded : ScanBound
  | included : Bytes → ScanBound
  | excluded : Bytes → ScanBound
deriving DecidableEq

/-- Whether `k` satisfies the lower bound of the range. -/
def lowerOk : ScanBound → Bytes → Bool
  | .unbounded, _ => true
  | .included b, k => !(bytesLt k b)
  | .excluded b, k => bytesLt b k

/-- Whether `k` satisfies the upper bound of the range. -/
def upperOk : ScanBound → Bytes → Bool
  | .unbounded, _ => true
  | .included b, k => !(bytesLt b k)
  | .excluded b, k => bytesLt k b

/-- `BitCask::scan`, fully consumed forward: the keydir records inside the
range (`BTreeMap::range`) in ascending key order, each key paired with its
lazily read value (`ScanIterator::next` + `Log::read_value`); a `none` value
is a failed read.  Reverse consumption (`ScanIterator::next_back` repeatedly)
yields exactly the reverse of this list. -/
def BitCask.scan (db : BitCask) (lo hi : ScanBound) : List (Bytes × Option Bytes) :=
  (db.keydir.filter fun e => lowerOk lo e.1 && upperOk hi e.1).map
    fun e => (e.1, read_value db.file e.2.1 e.2.2)

/-- `BitCask::compute_sizes`: the pair (live size, total size); the live size
folds `4 + 4 + key_len + value_len` over the keydir, the total size is the
file length. -/
def compute_sizes (db : BitCask) : Nat × Nat :=
  (db.keydir.foldl (fun size e => size + 4 + 4 + e.1.length + e.2.2) 0,
   db.file.length)

/-- The loop of `BitCask::write_log`: for each keydir record in ascending
order, read the value from the old file and append a fresh entry to the new
log, recording the new value position; `none` if a read fails. -/
def write_log_go (oldFile : Bytes) :
    List (Bytes × Nat × Nat) → Bytes → KeyDir → Option (Bytes × KeyDir)
  | [], newFile, newKd => some (newFile, newKd)
  | e :: rest, newFile, newKd =>
    match read_value oldFile e.2.1 e.2.2 with
    | none => none
    | some v =>
      let r := write_entry newFile e.1 (some v)
      write_log_go oldFile rest r.1
        (kdInsert newKd e.1 (r.2.1 + r.2.2 - e.2.2, e.2.2))

/-- `BitCask::write_log`: write a fresh log file holding one entry per live
key, in keydir (ascending key) order, starting from an empty file. -/
def write_log (db : BitCask) : Option (Bytes × KeyDir) :=
  write_log_go db.file db.keydir [] []

/-- `BitCask::compact`: swap in the freshly written log and keydir (the
atomic rename is invisible at the byte level). -/
def BitCask.compact (db : BitCask) : Option BitCask :=
  match write_log db with
  | some r => some { file := r.1, keydir := r.2 }
  | none => none


/-! ### Parsing encoded entries -/

theorem readU32_eq_none {file : Bytes} {pos : Nat} (h : file.length < pos + 4) :
    readU32 file pos = none := by
  have hlen : (file.drop pos).length < 4 := by rw [List.length_drop]; omega
  unfold readU32
  cases hd : file.drop pos with
  | nil => rfl
  | cons a t1 =>
    cases t1 with
    | nil => rfl
    | cons b t2 =>
      cases t2 with
      | nil => rfl
      | cons c t3 =>
        cases t3 with
        | nil => rfl
        | cons d t4 =>
          rw [hd] at hlen
          simp at hlen
          omega

/-- Well-formedness of a single logical write (key, value-or-tombstone): the
key length fits the `u32` header field and the value length fits a
non-negative `i32` marker, i.e. the stated format maxima. -/
def writeWf (key : Bytes) (value : Option Bytes) : Prop :=
  key.length < 4294967296 ∧ (valueBytes value).length < 2147483648

instance (key : Bytes) (value : Option Bytes) : Decidable (writeWf key value) := by
  unfold writeWf; infer_instance


/-- The marker bytes of a well-formed write decode to the value length for a
write, and to `2^32 - 1` (the two's-complement image of `-1`) for a
tombstone. -/
theorem markerBytes_eq (value : Option Bytes)
    (hv : (valueBytes value).length < 2147483648) :
    ∃ m, markerBytes value = encU32 m ∧ m < 4294967296 ∧
      (∀ v, value = some v → m = v.length ∧ m < 2147483648) ∧
      (value = none → 2147483648 ≤ m) := by
  cases value with
  | some v =>
    simp only [valueBytes] at hv
    refine ⟨v.length % 4294967296, rfl, Nat.mod_lt _ (by omega), ?_, ?_⟩
    · intro v' hv'
      cases hv'
      rw [Nat.mod_eq_of_lt (by omega)]
      exact ⟨rfl, hv⟩
    · intro h; cases h
  | none =>
    refine ⟨4294967295, rfl, by omega, ?_, ?_⟩
    · intro v h; cases h
    · intro _; omega

/-- Parsing at the start of a fully materialised well-formed entry yields
exactly that entry (key, value position, value length or tombstone). -/
theorem readEntry_at (F G key : Bytes) (value : Option Bytes)
    (hwf : writeWf key value) :
    readEntry (F ++ (encodeEntry key value ++ G)) F.length =
      some (key, F.length + 8 + key.length, value.map List.length) := by
  obtain ⟨hk, hv⟩ := hwf
  have hkl : key.length % 4294967296 = key.length := Nat.mod_eq_of_lt hk
  obtain ⟨m, hmb, hm32, hmsome, hmnone⟩ := markerBytes_eq value hv
  have hfile : F ++ (encodeEntry key value ++ G) =
      F ++ (encU32 (key.length % 4294967296) ++
        (encU32 m ++ (key ++ (valueBytes value ++ G)))) := by
    rw [encodeEntry, hmb]
    simp [List.append_assoc]
  have hlen : (F ++ (encodeEntry key value ++ G)).length =
      F.length + (8 + key.length + (valueBytes value).length) + G.length := by
    rw [List.length_append, List.length_append, length_encodeEntry, entrySize]
    omega
  have h₁ : readU32 (F ++ (encodeEntry key value ++ G)) F.length =
      some key.length := by
    rw [hfile, readU32_at _ _ _ (Nat.mod_lt _ (by omega)), hkl]
  have hfile₂ : F ++ (encodeEntry key value ++ G) =
      (F ++ encU32 (key.length % 4294967296)) ++
        (encU32 m ++ (key ++ (valueBytes value ++ G))) := by
    rw [hfile, ← List.append_assoc]
  have h₂ : readU32 (F ++ (encodeEntry key value ++ G)) (F.length + 4) =
      some m := by
    have hl : F.length + 4 = (F ++ encU32 (key.length % 4294967296)).length := by
      simp [List.length_append]
    rw [hl, hfile₂, readU32_at _ _ _ hm32]
  have hfile₃ : F ++ (encodeEntry key value ++ G) =
      ((F ++ encU32 (key.length % 4294967296)) ++ encU32 m) ++
        (key ++ (valueBytes value ++ G)) := by
    rw [hfile₂, ← List.append_assoc]
  have h₃ : readBytes (F ++ (encodeEntry key value ++ G)) (F.length + 8)
      key.length = some key := by
    have hl : F.length + 8 =
        ((F ++ encU32 (key.length % 4294967296)) ++ encU32 m).length := by
      simp [List.length_append]
    rw [hl, hfile₃, readBytes_at]
  simp only [readEntry, h₁, h₂, h₃]
  cases value with
  | some v =>
    obtain ⟨hm, hm31⟩ := hmsome v rfl
    subst hm
    rw [if_pos hm31]
    rw [if_pos (by rw [hlen]; simp only [valueBytes]; omega)]
    simp
  | none =>
    rw [if_neg (by have := hmnone rfl; omega)]
    simp

/-- Parsing a strictly truncated well-formed entry always reports a torn
entry, whichever field the cut falls in. -/
theorem readEntry_torn (F key : Bytes) (value : Option Bytes) (j : Nat)
    (hwf : writeWf key value) (hj : j < entrySize key value) :
    readEntry (F ++ (encodeEntry key value).take j) F.length = none := by
  obtain ⟨hk, hv⟩ := hwf
  have hkl : key.length % 4294967296 = key.length := Nat.mod_eq_of_lt hk
  obtain ⟨m, hmb, hm32, hmsome, hmnone⟩ := markerBytes_eq value hv
  have hjs : j < 8 + key.length + (valueBytes value).length := by
    simpa [entrySize] using hj
  have hlen : (F ++ (encodeEntry key value).take j).length = F.length + j := by
    rw [List.length_append, List.length_take, length_encodeEntry, entrySize]
    omega
  by_cases hj4 : j < 4
  · unfold readEntry
    rw [readU32_eq_none (by omega)]
  · have hfile : F ++ (encodeEntry key value).take j =
        F ++ (encU32 (key.length % 4294967296) ++
          ((encU32 m ++ (key ++ valueBytes value)).take (j - 4))) := by
      rw [encodeEntry, hmb]
      rw [show encU32 (key.length % 4294967296) ++ encU32 m ++ key ++ valueBytes value =
        encU32 (key.length % 4294967296) ++ (encU32 m ++ (key ++ valueBytes value)) by
          simp [List.append_assoc]]
      rw [List.take_append_eq_append_take, length_encU32,
        List.take_of_length_le (by rw [length_encU32]; omega)]
    have h₁ : readU32 (F ++ (encodeEntry key value).take j) F.length =
        some key.length := by
      rw [hfile, readU32_at _ _ _ (Nat.mod_lt _ (by omega)), hkl]
    by_cases hj8 : j < 8
    · simp only [readEntry, h₁, readU32_eq_none (show
        (F ++ (encodeEntry key value).take j).length < (F.length + 4) + 4 by omega)]
    · have hfile₂ : F ++ (encodeEntry key value).take j =
          (F ++ encU32 (key.length % 4294967296)) ++
            (encU32 m ++ ((key ++ valueBytes value).take (j - 8))) := by
        rw [hfile, ← List.append_assoc]
        congr 1
        rw [List.take_append_eq_append_take, length_encU32,
          List.take_of_length_le (by rw [length_encU32]; omega)]
        have hsub : j - 4 - 4 = j - 8 := by omega
        rw [hsub]
      have h₂ : readU32 (F ++ (encodeEntry key value).take j) (F.length + 4) =
          some m := by
        have hl : F.length + 4 = (F ++ encU32 (key.length % 4294967296)).length := by
          simp [List.length_append]
        rw [hl, hfile₂, readU32_at _ _ _ hm32]
      by_cases hjk : j < 8 + key.length
      · have h₃ : readBytes (F ++ (encodeEntry key value).take j)
            (F.length + 8) key.length = none := by
          unfold readBytes
          rw [if_neg (by omega)]
        simp only [readEntry, h₁, h₂, h₃]
      · cases value with
        | none =>
          exfalso
          simp [valueBytes] at hjs
          omega
        | some v =>
          obtain ⟨hm, hm31⟩ := hmsome v rfl
          subst hm
          have hfile₃ : F ++ (encodeEntry key (some v)).take j =
              ((F ++ encU32 (key.length % 4294967296)) ++ encU32 v.length) ++
                (key ++ v.take (j - 8 - key.length)) := by
            rw [hfile₂, ← List.append_assoc]
            congr 1
            rw [List.take_append_eq_append_take,
              List.take_of_length_le (by omega)]
            simp only [valueBytes]
          have h₃ : readBytes (F ++ (encodeEntry key (some v)).take j)
              (F.length + 8) key.length = some key := by
            have hl : F.length + 8 =
                ((F ++ encU32 (key.length % 4294967296)) ++ encU32 v.length).length := by
              simp [List.length_append]
            rw [hl, hfile₃, readBytes_at]
          simp only [readEntry, h₁, h₂, h₃]
          rw [if_pos hm31]
          rw [if_neg (by
            rw [hlen]
            simp only [valueBytes] at hjs
            omega)]

/-! ### Unfolding the scan loop -/

theorem buildKeydirLoop_of_ge (file : Bytes) (pos : Nat) (kd : KeyDir)
    (h : ¬ pos < file.length) : buildKeydirLoop file pos kd = (kd, pos) := by
  rw [buildKeydirLoop, if_neg h]

theorem buildKeydirLoop_torn (file : Bytes) (pos : Nat) (kd : KeyDir)
    (h : pos < file.length) (hre : readEntry file pos = none) :
    buildKeydirLoop file pos kd = (kd, pos) := by
  rw [buildKeydirLoop, if_pos h]
  split
  case _ hr => rw [hre] at hr; cases hr
  case _ hr => rw [hre] at hr; cases hr
  case _ => rfl

theorem buildKeydirLoop_set (file : Bytes) (pos : Nat) (kd : KeyDir)
    (key : Bytes) (vp vl : Nat) (h : pos < file.length)
    (hre : readEntry file pos = some (key, vp, some vl)) :
    buildKeydirLoop file pos kd =
      buildKeydirLoop file (vp + vl) (kdInsert kd key (vp, vl)) := by
  rw [buildKeydirLoop, if_pos h]
  split
  case _ hr =>
    rw [hre] at hr
    simp only [Option.some.injEq, Prod.mk.injEq] at hr
    obtain ⟨rfl, rfl, rfl⟩ := hr
    rfl
  case _ hr => rw [hre] at hr; simp at hr
  case _ hr => rw [hre] at hr; cases hr

theorem buildKeydirLoop_tombstone (file : Bytes) (pos : Nat) (kd : KeyDir)
    (key : Bytes) (vp : Nat) (h : pos < file.length)
    (hre : readEntry file pos = some (key, vp, none)) :
    buildKeydirLoop file pos kd = buildKeydirLoop file vp (kdRemove kd key) := by
  rw [buildKeydirLoop, if_pos h]
  split
  case _ hr => rw [hre] at hr; simp at hr
  case _ hr =>
    rw [hre] at hr
    simp only [Option.some.injEq, Prod.mk.injEq] at hr
    obtain ⟨h1, h2, -⟩ := hr
    rw [← h1, ← h2]
  case _ hr => rw [hre] at hr; cases hr

/-! ### Logical writes and replay -/

/-- One logical append (one `Log::write_entry` call): a key together with a
value, or a tombstone (`None`). -/
abbrev Write := Bytes × Option Bytes

/-- The bytes a sequence of appends adds to the log file. -/
def writesBytes : List Write → Bytes
  | [] => []
  | w :: ws => encodeEntry w.1 w.2 ++ writesBytes ws

/-- A sequence of writes is well formed when each one is. -/
def writesWf (ws : List Write) : Prop := ∀ w ∈ ws, writeWf w.1 w.2

/-- Replaying writes into a keydir while tracking the file position, exactly
as the open-time scan applies complete entries: a write inserts
`key ↦ (pos + 8 + key_len, value_len)`, a tombstone removes the key.
Returns the keydir and the end position. -/
def replayFrom (pos : Nat) (kd : KeyDir) : List Write → KeyDir × Nat
  | [] => (kd, pos)
  | (k, some v) :: ws =>
      replayFrom (pos + 8 + k.length + v.length)
        (kdInsert kd k (pos + 8 + k.length, v.length)) ws
  | (k, none) :: ws => replayFrom (pos + 8 + k.length) (kdRemove kd k) ws

/-- The longest prefix of the writes whose encoded entries lie entirely
within the first `M` bytes, when their encoding starts at `pos`. -/
def fittingPrefix (M : Nat) (pos : Nat) : List Write → List Write
  | [] => []
  | w :: ws =>
      if pos + entrySize w.1 w.2 ≤ M then
        w :: fittingPrefix M (pos + entrySize w.1 w.2) ws
      else []

theorem replayFrom_snd (ws : List Write) : ∀ (pos : Nat) (kd : KeyDir),
    (replayFrom pos kd ws).2 = pos + (writesBytes ws).length := by
  induction ws with
  | nil => intro pos kd; simp [replayFrom, writesBytes]
  | cons w ws ih =>
    intro pos kd
    obtain ⟨k, v⟩ := w
    cases v with
    | some v =>
      rw [replayFrom, ih]
      simp [writesBytes, List.length_append, length_encodeEntry, entrySize, valueBytes]
      omega
    | none =>
      rw [replayFrom, ih]
      simp [writesBytes, List.length_append, length_encodeEntry, entrySize, valueBytes]
      omega

theorem fittingPrefix_end_le (ws : List Write) : ∀ (M pos : Nat), pos ≤ M →
    pos + (writesBytes (fittingPrefix M pos ws)).length ≤ M := by
  induction ws with
  | nil => intro M pos h; simpa [fittingPrefix, writesBytes] using h
  | cons w ws ih =>
    intro M pos h
    by_cases hfit : pos + entrySize w.1 w.2 ≤ M
    · rw [fittingPrefix, if_pos hfit]
      have := ih M (pos + entrySize w.1 w.2) hfit
      simp only [writesBytes, List.length_append, length_encodeEntry]
      omega
    · rw [fittingPrefix, if_neg hfit]
      simpa [writesBytes] using h

theorem fittingPrefix_all (ws : List Write) : ∀ (M pos : Nat),
    pos + (writesBytes ws).length ≤ M → fittingPrefix M pos ws = ws := by
  induction ws with
  | nil => intro M pos _; rfl
  | cons w ws ih =>
    intro M pos h
    rw [writesBytes, List.length_append, length_encodeEntry] at h
    rw [fittingPrefix, if_pos (by omega), ih M _ (by omega)]

/-- Central recovery lemma: scanning the first `M` bytes of a log made of
well-formed entries applies exactly the writes whose entries fit entirely in
those bytes, and stops at the end of the last complete entry. -/
theorem buildKeydirLoop_take (ws : List Write) :
    writesWf ws → ∀ (F : Bytes) (kd : KeyDir) (M : Nat), F.length ≤ M →
      M ≤ F.length + (writesBytes ws).length →
      buildKeydirLoop ((F ++ writesBytes ws).take M) F.length kd =
        replayFrom F.length kd (fittingPrefix M F.length ws) := by
  induction ws with
  | nil =>
    intro _ F kd M h1 h2
    simp only [writesBytes, List.length_nil, Nat.add_zero] at h2
    have hM : M = F.length := le_antisymm h2 h1
    subst hM
    rw [show (F ++ writesBytes []).take F.length = F by
      simp [writesBytes, List.take_of_length_le]]
    rw [buildKeydirLoop_of_ge _ _ _ (by omega)]
    rfl
  | cons w ws ih =>
    intro hwf F kd M h1 h2
    obtain ⟨k, v⟩ := w
    have hwfw : writeWf k v := hwf (k, v) (by simp)
    have hwfs : writesWf ws := fun w' hw' => hwf w' (by simp [hw'])
    have hE : (encodeEntry k v).length = entrySize k v := length_encodeEntry k v
    have hsize : 8 ≤ entrySize k v := by unfold entrySize; omega
    have htot : (writesBytes ((k, v) :: ws)).length =
        entrySize k v + (writesBytes ws).length := by
      simp [writesBytes, List.length_append, hE]
    by_cases hfit : F.length + entrySize k v ≤ M
    · -- the first entry fits completely
      have hG : (F ++ writesBytes ((k, v) :: ws)).take M =
          (F ++ encodeEntry k v) ++
            (writesBytes ws).take (M - (F.length + entrySize k v)) := by
        simp only [writesBytes]
        rw [← List.append_assoc]
        rw [List.take_append_eq_append_take]
        rw [List.take_of_length_le (by rw [List.length_append, hE]; omega)]
        congr 2
        rw [List.length_append, hE]
      have hflen : ((F ++ writesBytes ((k, v) :: ws)).take M).length = M := by
        rw [List.length_take, List.length_append, htot]
        omega
      have hre : readEntry ((F ++ writesBytes ((k, v) :: ws)).take M) F.length =
          some (k, F.length + 8 + k.length, v.map List.length) := by
        rw [hG, List.append_assoc]
        exact readEntry_at F _ k v hwfw
      have hihpre : ((F ++ encodeEntry k v) ++ writesBytes ws).take M =
          (F ++ writesBytes ((k, v) :: ws)).take M := by
        simp only [writesBytes]
        rw [List.append_assoc]
      have hposE : F.length + entrySize k v = (F ++ encodeEntry k v).length := by
        rw [List.length_append, hE]
      cases v with
      | some vv =>
        have hre' : readEntry ((F ++ writesBytes ((k, some vv) :: ws)).take M)
            F.length = some (k, F.length + 8 + k.length, some vv.length) := hre
        rw [buildKeydirLoop_set _ _ kd k (F.length + 8 + k.length) vv.length
          (by rw [hflen]; omega) hre']
        rw [fittingPrefix, if_pos hfit, replayFrom]
        have heq1 : F.length + 8 + k.length + vv.length =
            (F ++ encodeEntry k (some vv)).length := by
          rw [← hposE]
          simp only [entrySize, valueBytes]
          omega
        rw [heq1, show F.length + entrySize k (some vv) =
          (F ++ encodeEntry k (some vv)).length from hposE]
        rw [← hihpre]
        exact ih hwfs (F ++ encodeEntry k (some vv))
          (kdInsert kd k (F.length + 8 + k.length, vv.length)) M
          (by rw [← hposE]; omega) (by rw [← hposE]; omega)
      | none =>
        have hre' : readEntry ((F ++ writesBytes ((k, none) :: ws)).take M)
            F.length = some (k, F.length + 8 + k.length, none) := hre
        rw [buildKeydirLoop_tombstone _ _ kd k (F.length + 8 + k.length)
          (by rw [hflen]; omega) hre']
        rw [fittingPrefix, if_pos hfit, replayFrom]
        have heq1 : F.length + 8 + k.length =
            (F ++ encodeEntry k none).length := by
          rw [← hposE]
          simp only [entrySize, valueBytes, List.length_nil]
          omega
        rw [heq1, show F.length + entrySize k none =
          (F ++ encodeEntry k none).length from hposE]
        rw [← hihpre]
        exact ih hwfs (F ++ encodeEntry k none) (kdRemove kd k) M
          (by rw [← hposE]; omega) (by rw [← hposE]; omega)
    · -- the first entry does not fit: the scan stops at its start
      rw [fittingPrefix, if_neg hfit]
      by_cases hq : F.length < M
      · have hj : M - F.length < entrySize k v := by omega
        have hfile : (F ++ writesBytes ((k, v) :: ws)).take M =
            F ++ (encodeEntry k v).take (M - F.length) := by
          simp only [writesBytes]
          rw [List.take_append_eq_append_take,
            List.take_of_length_le (le_of_lt hq)]
          congr 1
          rw [List.take_append_eq_append_take]
          rw [show M - F.length - (encodeEntry k v).length = 0 by rw [hE]; omega]
          rw [List.take_zero, List.append_nil]
        have hre := readEntry_torn F k v (M - F.length) hwfw hj
        rw [hfile, buildKeydirLoop_torn _ _ _
          (by
            rw [List.length_append, List.length_take, hE]
            omega) hre]
        rfl
      · have hM : M = F.length := by omega
        subst hM
        rw [buildKeydirLoop_of_ge _ _ _ (by rw [List.length_take]; omega)]
        rfl

/-! ### Engine operation sequences -/

/-- A logical engine operation (`BitCask::set` / `BitCask::delete`). -/
inductive Op
  | set : Bytes → Bytes → Op
  | del : Bytes → Op
deriving DecidableEq

/-- Apply one operation to the engine. -/
def applyOp (db : BitCask) : Op → BitCask
  | .set k v => db.set k v
  | .del k => db.delete k

/-- Run a sequence of operations left to right. -/
def runOps (db : BitCask) : List Op → BitCask
  | [] => db
  | op :: ops => runOps (applyOp db op) ops

/-- A freshly opened engine on a new (empty) file. -/
def BitCask.empty : BitCask := { file := [], keydir := [] }

/-- The append each operation performs on the log. -/
def Op.toWrite : Op → Write
  | .set k v => (k, some v)
  | .del k => (k, none)

/-- In-memory well-formedness of an operation: the `u32` entry length
`4 + 4 + key_len + value_len` of a `set` does not overflow. -/
def Op.wfMem : Op → Prop
  | .set k v => 8 + k.length + v.length < 4294967296
  | .del _ => True

/-- Persistence well-formedness: additionally the value length fits a
non-negative `i32` marker, and a tombstone's key length fits its `u32`
header field. -/
def Op.wfPersist : Op → Prop
  | .set k v => 8 + k.length + v.length < 4294967296 ∧ v.length < 2147483648
  | .del k => k.length < 4294967296

instance (op : Op) : Decidable op.wfMem := by
  cases op <;> simp only [Op.wfMem] <;> infer_instance

instance (op : Op) : Decidable op.wfPersist := by
  cases op <;> simp only [Op.wfPersist] <;> infer_instance

theorem BitCask.set_file (db : BitCask) (k v : Bytes) :
    (db.set k v).file = db.file ++ encodeEntry k (some v) := rfl

theorem BitCask.delete_file (db : BitCask) (k : Bytes) :
    (db.delete k).file = db.file ++ encodeEntry k none := rfl

theorem BitCask.delete_keydir (db : BitCask) (k : Bytes) :
    (db.delete k).keydir = kdRemove db.keydir k := rfl

/-- Under the `u32` entry-length bound, `set` records exactly the value's
position `pos + 8 + key_len` and its length. -/
theorem BitCask.set_keydir (db : BitCask) (k v : Bytes)
    (h : 8 + k.length + v.length < 4294967296) :
    (db.set k v).keydir =
      kdInsert db.keydir k (db.file.length + 8 + k.length, v.length) := by
  have hv : v.length % 4294967296 = v.length := Nat.mod_eq_of_lt (by omega)
  have hk : k.length % 4294967296 = k.length := Nat.mod_eq_of_lt (by omega)
  simp only [BitCask.set, write_entry, valueBytes, hv, hk]
  have hlen : (4 + 4 + k.length + v.length) % 4294967296 =
      4 + 4 + k.length + v.length := Nat.mod_eq_of_lt (by omega)
  rw [hlen]
  have : db.file.length + (4 + 4 + k.length + v.length) - v.length =
      db.file.length + 8 + k.length := by omega
  rw [this]

theorem runOps_file (ops : List Op) : ∀ db : BitCask,
    (runOps db ops).file = db.file ++ writesBytes (ops.map Op.toWrite) := by
  induction ops with
  | nil => intro db; simp [runOps, writesBytes]
  | cons op ops ih =>
    intro db
    cases op with
    | set k v =>
      rw [runOps, ih]
      simp only [applyOp, BitCask.set_file, List.map, Op.toWrite, writesBytes]
      rw [List.append_assoc]
    | del k =>
      rw [runOps, ih]
      simp only [applyOp, BitCask.delete_file, List.map, Op.toWrite, writesBytes]
      rw [List.append_assoc]

/-- Under persistence well-formedness the in-memory keydir evolves exactly as
the replay of the corresponding writes. -/
theorem runOps_keydir (ops : List Op) : ∀ db : BitCask,
    (∀ op ∈ ops, op.wfPersist) →
    (runOps db ops).keydir =
      (replayFrom db.file.length db.keydir (ops.map Op.toWrite)).1 := by
  induction ops with
  | nil => intro db _; rfl
  | cons op ops ih =>
    intro db hwf
    have hrest : ∀ op' ∈ ops, op'.wfPersist := fun op' h' => hwf op' (by simp [h'])
    cases op with
    | set k v =>
      have hop : (Op.set k v).wfPersist := hwf _ (by simp)
      obtain ⟨h1, _⟩ := hop
      rw [runOps, ih _ hrest]
      simp only [List.map, Op.toWrite, replayFrom]
      have hfile : (applyOp db (Op.set k v)).file.length =
          db.file.length + 8 + k.length + v.length := by
        simp only [applyOp, BitCask.set_file, List.length_append,
          length_encodeEntry, entrySize, valueBytes]
        omega
      have hkd : (applyOp db (Op.set k v)).keydir =
          kdInsert db.keydir k (db.file.length + 8 + k.length, v.length) :=
        BitCask.set_keydir db k v h1
      rw [hfile, hkd]
    | del k =>
      rw [runOps, ih _ hrest]
      simp only [List.map, Op.toWrite, replayFrom]
      have hfile : (applyOp db (Op.del k)).file.length =
          db.file.length + 8 + k.length := by
        simp only [applyOp, BitCask.delete_file, List.length_append,
          length_encodeEntry, entrySize, valueBytes, List.length_nil]
        omega
      rw [hfile]
      rfl

/-- Well-formed operations produce well-formed writes. -/
theorem opsWrites_wf (ops : List Op) (h : ∀ op ∈ ops, op.wfPersist) :
    writesWf (ops.map Op.toWrite) := by
  intro w hw
  rw [List.mem_map] at hw
  obtain ⟨op, hop, rfl⟩ := hw
  cases op with
  | set k v =>
    obtain ⟨h1, h2⟩ := h _ hop
    refine ⟨?_, ?_⟩ <;> simp only [Op.toWrite, valueBytes] <;> omega
  | del k =>
    have h1 : k.length < 4294967296 := h _ hop
    refine ⟨?_, ?_⟩ <;> simp only [Op.toWrite, valueBytes, List.length_nil] <;> omega

/-! ### The get invariant -/

/-- A slice lying inside a prefix is unaffected by appending. -/
theorem slice_append_of_le (F X : Bytes) (p n : Nat) (h : p + n ≤ F.length) :
    ((F ++ X).drop p).take n = (F.drop p).take n := by
  rw [List.drop_append_of_le_length (by omega),
    List.take_append_of_le_length (by rw [List.length_drop]; omega)]

/-- The value bytes of an appended entry sit at offset `pos + 8 + key_len`. -/
theorem encodeEntry_value_slice (F k v G : Bytes) :
    (((F ++ encodeEntry k (some v)) ++ G).drop (F.length + 8 + k.length)).take
      v.length = v := by
  have hsplit : (F ++ encodeEntry k (some v)) ++ G =
      ((F ++ encU32 (k.length % 4294967296) ++ markerBytes (some v) ++ k) ++
        (v ++ G)) := by
    simp [encodeEntry, valueBytes, List.append_assoc]
  have hlen : (F ++ encU32 (k.length % 4294967296) ++ markerBytes (some v) ++
      k).length = F.length + 8 + k.length := by
    simp [List.length_append, markerBytes]
    omega
  rw [hsplit, ← hlen, List.drop_left, List.take_append_of_le_length (le_refl _),
    List.take_length]

/-- The in-memory state tracks a logical map `m`: every mapped key has a
keydir record pointing at exactly its value bytes in the file, and every
unmapped key is absent from the keydir. -/
def tracks (db : BitCask) (m : Bytes → Option Bytes) : Prop :=
  ∀ k, (∀ v, m k = some v →
          ∃ p, kdGet db.keydir k = some (p, v.length) ∧
            p + v.length ≤ db.file.length ∧
            (db.file.drop p).take v.length = v) ∧
       (m k = none → kdGet db.keydir k = none)

theorem get_of_tracks {db : BitCask} {m : Bytes → Option Bytes}
    (h : tracks db m) (k : Bytes) : db.get k = some (m k) := by
  cases hm : m k with
  | some v =>
    obtain ⟨p, h1, h2, h3⟩ := (h k).1 v hm
    unfold BitCask.get read_value readBytes
    rw [h1]
    simp only [if_pos h2, h3]
  | none =>
    unfold BitCask.get
    rw [(h k).2 hm]

theorem tracks_set {db : BitCask} {m : Bytes → Option Bytes} (k v : Bytes)
    (h : tracks db m) (hwf : 8 + k.length + v.length < 4294967296) :
    tracks (db.set k v) (fun q => if k = q then some v else m q) := by
  intro q
  by_cases hq : k = q
  · subst hq
    refine ⟨?_, by simp⟩
    intro w hw
    have hw' : v = w := by simpa using hw
    subst hw'
    refine ⟨db.file.length + 8 + k.length, ?_, ?_, ?_⟩
    · rw [BitCask.set_keydir db k v hwf, kdGet_insert_self]
    · rw [BitCask.set_file, List.length_append, length_encodeEntry]
      simp only [entrySize, valueBytes]
      omega
    · have := encodeEntry_value_slice db.file k v []
      simpa using this
  · constructor
    · intro w hw
      simp only [if_neg hq] at hw
      obtain ⟨p, h1, h2, h3⟩ := (h q).1 w hw
      refine ⟨p, ?_, ?_, ?_⟩
      · rw [BitCask.set_keydir db k v hwf,
          kdGet_insert_ne _ _ _ _ (fun hh => hq hh.symm), h1]
      · rw [BitCask.set_file, List.length_append]; omega
      · rw [BitCask.set_file, slice_append_of_le _ _ _ _ h2, h3]
    · intro hw
      simp only [if_neg hq] at hw
      rw [BitCask.set_keydir db k v hwf,
        kdGet_insert_ne _ _ _ _ (fun hh => hq hh.symm)]
      exact (h q).2 hw

theorem tracks_delete {db : BitCask} {m : Bytes → Option Bytes} (k : Bytes)
    (h : tracks db m) (hs : kdSorted db.keydir) :
    tracks (db.delete k) (fun q => if k = q then none else m q) := by
  intro q
  by_cases hq : k = q
  · subst hq
    refine ⟨by simp, ?_⟩
    intro _
    rw [BitCask.delete_keydir]
    exact kdGet_remove_self _ _ hs
  · constructor
    · intro w hw
      simp only [if_neg hq] at hw
      obtain ⟨p, h1, h2, h3⟩ := (h q).1 w hw
      refine ⟨p, ?_, ?_, ?_⟩
      · rw [BitCask.delete_keydir,
          kdGet_remove_ne _ _ _ (fun hh => hq hh.symm), h1]
      · rw [BitCask.delete_file, List.length_append]; omega
      · rw [BitCask.delete_file, slice_append_of_le _ _ _ _ h2, h3]
    · intro hw
      simp only [if_neg hq] at hw
      rw [BitCask.delete_keydir, kdGet_remove_ne _ _ _ (fun hh => hq hh.symm)]
      exact (h q).2 hw

theorem kdSorted_applyOp {db : BitCask} (op : Op) (hs : kdSorted db.keydir)
    (hwf : op.wfMem) : kdSorted (applyOp db op).keydir := by
  cases op with
  | set k v =>
    rw [show (applyOp db (Op.set k v)).keydir = (db.set k v).keydir from rfl,
      BitCask.set_keydir db k v hwf]
    exact kdInsert_sorted _ _ hs
  | del k =>
    rw [show (applyOp db (Op.del k)).keydir = kdRemove db.keydir k from rfl]
    exact kdRemove_sorted _ hs

/-- The per-key folding step the specification describes: a later `set` of
the key overwrites, a later `delete` clears. -/
def specStep (k : Bytes) (acc : Option Bytes) : Op → Option Bytes
  | .set k' v => if k' = k then some v else acc
  | .del k' => if k' = k then none else acc

/-- The value of the most recent `set(k, v)` in `ops` that is not followed by
a later `delete(k)` or `set(k, _)`; `none` if there is no such `set`. -/
def specGet (ops : List Op) (k : Bytes) : Option Bytes :=
  ops.foldl (specStep k) none

theorem runOps_tracks (ops : List Op) : ∀ (db : BitCask) (m : Bytes → Option Bytes),
    (∀ op ∈ ops, op.wfMem) → tracks db m → kdSorted db.keydir →
    tracks (runOps db ops) (fun k => ops.foldl (specStep k) (m k)) ∧
      kdSorted (runOps db ops).keydir := by
  induction ops with
  | nil => intro db m _ ht hs; exact ⟨ht, hs⟩
  | cons op ops ih =>
    intro db m hwf ht hs
    have hop : op.wfMem := hwf op (by simp)
    have hrest : ∀ op' ∈ ops, op'.wfMem := fun op' h' => hwf op' (by simp [h'])
    have hs' : kdSorted (applyOp db op).keydir := kdSorted_applyOp op hs hop
    cases op with
    | set k v =>
      exact ih (applyOp db (Op.set k v)) _ hrest (tracks_set k v ht hop) hs'
    | del k =>
      exact ih (applyOp db (Op.del k)) _ hrest (tracks_delete k ht hs) hs'

/-! ### Claim C1 -/

/-- C1 (amended): for every finite sequence of `set`/`delete` operations in
which each `set(k, v)` keeps the `u32` entry length exact
(`8 + |k| + |v| ≤ 2^32 - 1`), a subsequent `get(k)` on a freshly opened
engine returns exactly the value of the most recent `set(k, v)` not followed
by a later `delete(k)` or `set(k, _)`, and no value if there is no such
`set`. -/
theorem bitcask_get_after_ops (ops : List Op) (h : ∀ op ∈ ops, op.wfMem)
    (k : Bytes) :
    (runOps BitCask.empty ops).get k = some (specGet ops k) := by
  have ht0 : tracks BitCask.empty (fun _ => none) :=
    fun q => ⟨fun v hv => Option.noConfusion hv, fun _ => rfl⟩
  have hs0 : kdSorted BitCask.empty.keydir := List.Pairwise.nil
  exact get_of_tracks (runOps_tracks ops BitCask.empty _ h ht0 hs0).1 k

/-- Witness for C1 on a concrete history: `set b=2, set b=3, del b, set b=4`
leaves `get b = 4`. -/
theorem bitcask_get_after_ops_witness :
    (∀ op ∈ [Op.set [98] [2], Op.set [98] [3], Op.del [98], Op.set [98] [4]],
      op.wfMem) ∧
    (runOps BitCask.empty
      [Op.set [98] [2], Op.set [98] [3], Op.del [98], Op.set [98] [4]]).get [98] =
      some (specGet
        [Op.set [98] [2], Op.set [98] [3], Op.del [98], Op.set [98] [4]] [98]) :=
  ⟨by decide, bitcask_get_after_ops _ (by decide) [98]⟩

/-- Raw form of the keydir update of `set`, with the `u32` arithmetic left
explicit. -/
theorem BitCask.set_keydir_raw (db : BitCask) (k v : Bytes) :
    (db.set k v).keydir =
      kdInsert db.keydir k
        (db.file.length +
            (4 + 4 + k.length % 4294967296 + v.length % 4294967296) % 4294967296 -
          v.length % 4294967296,
         v.length % 4294967296) := rfl

theorem BitCask.get_some_of (db : BitCask) (k : Bytes) (p l : Nat) (w : Bytes)
    (h : kdGet db.keydir k = some (p, l))
    (hr : read_value db.file p l = some w) : db.get k = some (some w) := by
  unfold BitCask.get
  simp only [h, hr]

theorem BitCask.get_none_of (db : BitCask) (k : Bytes)
    (h : kdGet db.keydir k = none) : db.get k = some none := by
  unfold BitCask.get
  simp only [h]

/-- C1 exactly as stated (with no size bound) is false: a single
`set([0], v)` with `|v| = 2^32 + 5` makes `get [0]` return only the first
5 bytes of `v`, because `value.len() as u32` truncates the stored length to
`5`.  All the machine casts involved (`as u32`, `as i32`) are well defined
truncations in Rust, so the divergence is real, not an overflow panic. -/
theorem bitcask_get_unbounded_counterexample :
    (runOps BitCask.empty [Op.set [0] (List.replicate 4294967301 7)]).get [0] =
        some (some (List.replicate 5 7)) ∧
    specGet [Op.set [0] (List.replicate 4294967301 7)] [0] =
        some (List.replicate 4294967301 7) ∧
    ¬ ((runOps BitCask.empty [Op.set [0] (List.replicate 4294967301 7)]).get [0] =
        some (specGet [Op.set [0] (List.replicate 4294967301 7)] [0])) := by
  have hlen : (List.replicate 4294967301 (7 : Nat)).length = 4294967301 :=
    List.length_replicate _ _
  have hdb : runOps BitCask.empty [Op.set [0] (List.replicate 4294967301 7)] =
      BitCask.set BitCask.empty [0] (List.replicate 4294967301 7) := rfl
  have hkd : (BitCask.set BitCask.empty [0] (List.replicate 4294967301 7)).keydir
      = [([0], (9, 5))] := by
    rw [BitCask.set_keydir_raw, hlen]
    norm_num [kdInsert, BitCask.empty]
  have hfileE : (BitCask.set BitCask.empty [0] (List.replicate 4294967301 7)).file
      = [0, 0, 0, 1, 0, 0, 0, 5, 0] ++ List.replicate 4294967301 7 := by
    rw [BitCask.set_file]
    show ([] : Bytes) ++ encodeEntry [0] (some (List.replicate 4294967301 7)) = _
    rw [List.nil_append, encodeEntry, markerBytes, hlen]
    rw [show encU32 (([0] : Bytes).length % 4294967296) = [0, 0, 0, 1] from by
      norm_num [encU32]]
    rw [show encU32 (4294967301 % 4294967296) = [0, 0, 0, 5] from by
      norm_num [encU32]]
    rfl
  have hrv : read_value
      ((BitCask.set BitCask.empty [0] (List.replicate 4294967301 7)).file) 9 5 =
      some (List.replicate 5 7) := by
    rw [hfileE]
    unfold read_value readBytes
    rw [if_pos (by rw [List.length_append, hlen]; norm_num)]
    have hdrop9 : (([0, 0, 0, 1, 0, 0, 0, 5, 0] : Bytes) ++
        List.replicate 4294967301 7).drop 9 = List.replicate 4294967301 7 := rfl
    rw [hdrop9, List.take_replicate]
    norm_num
  have hget : (BitCask.set BitCask.empty [0] (List.replicate 4294967301 7)).get [0]
      = some (some (List.replicate 5 7)) :=
    BitCask.get_some_of _ [0] 9 5 _ (by rw [hkd]; rfl) hrv
  have hspec : specGet [Op.set [0] (List.replicate 4294967301 7)] [0] =
      some (List.replicate 4294967301 7) := rfl
  refine ⟨by rw [hdb]; exact hget, hspec, ?_⟩
  intro hEq
  rw [hdb, hget, hspec] at hEq
  simp only [Option.some.injEq] at hEq
  have hll := congrArg List.length hEq
  rw [List.length_replicate, List.length_replicate] at hll
  norm_num at hll

/-! ### Claim C2 -/

instance (ws : List Write) : Decidable (writesWf ws) := by
  unfold writesWf; infer_instance

/-- C2: torn-tail recovery.  For every log file produced by a sequence of
well-formed writes and every truncation length `M` up to the file length,
opening the truncated file succeeds (the model of `BitCask::new` is total:
every incomplete read is handled by truncation, never an error), and the
resulting engine equals the replay of exactly the longest prefix of entries
fully contained in the first `M` bytes: the keydir is that replay's keydir,
and the open-time scan truncates the file to the start offset of the first
incomplete entry, i.e. the end offset of the last complete one. -/
theorem bitcask_torn_tail_recovery (ws : List Write) (hwf : writesWf ws)
    (M : Nat) (hM : M ≤ (writesBytes ws).length) :
    BitCask.new ((writesBytes ws).take M) =
      { file := (writesBytes ws).take (replayFrom 0 [] (fittingPrefix M 0 ws)).2,
        keydir := (replayFrom 0 [] (fittingPrefix M 0 ws)).1 } := by
  have hloop := buildKeydirLoop_take ws hwf [] [] M (by simp) (by simpa using hM)
  simp only [List.nil_append, List.length_nil] at hloop
  have hend : (replayFrom 0 [] (fittingPrefix M 0 ws)).2 ≤ M := by
    rw [replayFrom_snd]
    have := fittingPrefix_end_le ws M 0 (Nat.zero_le M)
    omega
  unfold BitCask.new build_keydir
  simp only [hloop]
  congr 1
  rw [List.take_take, Nat.min_eq_left hend]

/-- Witness for C2: two writes (10 and 9 bytes); truncating to 12 bytes
keeps exactly the first entry. -/
theorem bitcask_torn_tail_recovery_witness :
    writesWf [([1], some [2]), ([1], none)] ∧
    BitCask.new ((writesBytes [([1], some [2]), ([1], none)]).take 12) =
      { file := (writesBytes [([1], some [2]), ([1], none)]).take
          (replayFrom 0 [] (fittingPrefix 12 0 [([1], some [2]), ([1], none)])).2,
        keydir :=
          (replayFrom 0 [] (fittingPrefix 12 0 [([1], some [2]), ([1], none)])).1 } :=
  ⟨by decide, bitcask_torn_tail_recovery _ (by decide) 12 (by decide)⟩

/-! ### Claim C3 -/

/-- C3 (amended): for every engine state reached by well-formed operations
(each `set` keeps `8 + |k| + |v| ≤ 2^32 - 1` and `|v| ≤ 2^31 - 1`, each
`delete` key fits its `u32` header), closing and reopening the same path
rebuilds exactly the in-memory engine: the keydir rebuilt by scanning the
log equals the keydir that was in memory, the file is unchanged, and hence
every `get` and every `scan` returns the same results as before the
close. -/
theorem bitcask_reopen_roundtrip (ops : List Op)
    (h : ∀ op ∈ ops, op.wfPersist) :
    BitCask.new ((runOps BitCask.empty ops).file) = runOps BitCask.empty ops ∧
    (∀ k, (BitCask.new ((runOps BitCask.empty ops).file)).get k =
      (runOps BitCask.empty ops).get k) ∧
    (∀ lo hi, (BitCask.new ((runOps BitCask.empty ops).file)).scan lo hi =
      (runOps BitCask.empty ops).scan lo hi) := by
  have hwf := opsWrites_wf ops h
  have hfile : (runOps BitCask.empty ops).file =
      writesBytes (ops.map Op.toWrite) := by
    rw [runOps_file]
    rfl
  have hkd : (runOps BitCask.empty ops).keydir =
      (replayFrom 0 [] (ops.map Op.toWrite)).1 := by
    have := runOps_keydir ops BitCask.empty h
    simpa [BitCask.empty] using this
  have hloop := buildKeydirLoop_take (ops.map Op.toWrite) hwf [] []
    (writesBytes (ops.map Op.toWrite)).length (by simp) (by simp)
  simp only [List.nil_append, List.length_nil, List.take_length] at hloop
  rw [fittingPrefix_all (ops.map Op.toWrite) _ 0 (by omega)] at hloop
  have hmain : BitCask.new ((runOps BitCask.empty ops).file) =
      runOps BitCask.empty ops := by
    unfold BitCask.new build_keydir
    rw [hfile]
    simp only [hloop]
    rw [replayFrom_snd]
    simp only [Nat.zero_add]
    rw [List.take_length, ← hfile, ← hkd]
  exact ⟨hmain, fun k => by rw [hmain], fun lo hi => by rw [hmain]⟩

/-- Witness for C3 on a concrete history. -/
theorem bitcask_reopen_roundtrip_witness :
    (∀ op ∈ [Op.set [98] [2], Op.del [99], Op.set [97] []], op.wfPersist) ∧
    BitCask.new
        ((runOps BitCask.empty [Op.set [98] [2], Op.del [99], Op.set [97] []]).file) =
      runOps BitCask.empty [Op.set [98] [2], Op.del [99], Op.set [97] []] :=
  ⟨by decide, (bitcask_reopen_roundtrip _ (by decide)).1⟩

/-- Parsing an entry whose 32-bit marker field holds any value with the top
bit set (any negative `i32`, not only `-1`) yields a tombstone: the key, the
value position `pos + 8 + key_len`, and no value length. -/
theorem readEntry_negative_marker (F key G : Bytes) (m : Nat)
    (hk : key.length < 4294967296) (hm1 : 2147483648 ≤ m) (hm2 : m < 4294967296) :
    readEntry (F ++ (encU32 (key.length % 4294967296) ++
        (encU32 m ++ (key ++ G)))) F.length =
      some (key, F.length + 8 + key.length, none) := by
  have hkl : key.length % 4294967296 = key.length := Nat.mod_eq_of_lt hk
  have h₁ : readU32 (F ++ (encU32 (key.length % 4294967296) ++
      (encU32 m ++ (key ++ G)))) F.length = some key.length := by
    rw [readU32_at _ _ _ (Nat.mod_lt _ (by omega)), hkl]
  have hassoc₂ : F ++ (encU32 (key.length % 4294967296) ++
      (encU32 m ++ (key ++ G))) =
      (F ++ encU32 (key.length % 4294967296)) ++ (encU32 m ++ (key ++ G)) := by
    rw [List.append_assoc]
  have h₂ : readU32 (F ++ (encU32 (key.length % 4294967296) ++
      (encU32 m ++ (key ++ G)))) (F.length + 4) = some m := by
    have hl : F.length + 4 = (F ++ encU32 (key.length % 4294967296)).length := by
      simp [List.length_append]
    rw [hl, hassoc₂, readU32_at _ _ _ hm2]
  have hassoc₃ : F ++ (encU32 (key.length % 4294967296) ++
      (encU32 m ++ (key ++ G))) =
      ((F ++ encU32 (key.length % 4294967296)) ++ encU32 m) ++ (key ++ G) := by
    rw [hassoc₂, ← List.append_assoc]
  have h₃ : readBytes (F ++ (encU32 (key.length % 4294967296) ++
      (encU32 m ++ (key ++ G)))) (F.length + 8) key.length = some key := by
    have hl : F.length + 8 =
        ((F ++ encU32 (key.length % 4294967296)) ++ encU32 m).length := by
      simp [List.length_append]
    rw [hl, hassoc₃, readBytes_at]
  simp only [readEntry, h₁, h₂, h₃]
  rw [if_neg (by omega)]

/-- The keydir an open builds is the one the scan loop computes. -/
theorem BitCask.new_keydir_of (file : Bytes) (kd : KeyDir) (p : Nat)
    (h : buildKeydirLoop file 0 [] = (kd, p)) :
    (BitCask.new file).keydir = kd := by
  unfold BitCask.new build_keydir
  rw [h]

/-- An entry whose key read runs past end of file is torn. -/
theorem readEntry_none_of_key_eof (file : Bytes) (pos keyLen marker : Nat)
    (h1 : readU32 file pos = some keyLen)
    (h2 : readU32 file (pos + 4) = some marker)
    (h3 : readBytes file (pos + 8) keyLen = none) :
    readEntry file pos = none := by
  simp only [readEntry, h1, h2, h3]

/-- The value used in the reopen counterexample: `2^31` bytes, starting with
four `0xFF` bytes. -/
def cexValue : Bytes := 255 :: 255 :: 255 :: 255 :: List.replicate 2147483644 0

theorem cexValue_length : cexValue.length = 2147483648 := by
  unfold cexValue
  rw [List.length_cons, List.length_cons, List.length_cons, List.length_cons,
    List.length_replicate]

/-- C3 exactly as stated (for arbitrary operation sequences) is false: after
`set("a", v)` with `|v| = 2^31`, the marker `v.len() as i32` is the negative
value `-2^31`, so the reopening scan treats the entry as a tombstone, then
finds a torn entry inside the value bytes and truncates; `get "a"` returns
the value before the close but nothing after.  All casts involved are well
defined Rust truncations. -/
theorem bitcask_reopen_counterexample :
    (runOps BitCask.empty [Op.set [97] cexValue]).get [97] =
      some (some cexValue) ∧
    (BitCask.new ((runOps BitCask.empty [Op.set [97] cexValue]).file)).get [97] =
      some none ∧
    ¬ (BitCask.new ((runOps BitCask.empty [Op.set [97] cexValue]).file)).get [97] =
      (runOps BitCask.empty [Op.set [97] cexValue]).get [97] := by
  have hdb : runOps BitCask.empty [Op.set [97] cexValue] =
      BitCask.set BitCask.empty [97] cexValue := rfl
  have hkd : (BitCask.set BitCask.empty [97] cexValue).keydir =
      [([97], (9, 2147483648))] := by
    rw [BitCask.set_keydir_raw, cexValue_length]
    norm_num [kdInsert, BitCask.empty]
  have hfileE : (BitCask.set BitCask.empty [97] cexValue).file =
      [0, 0, 0, 1, 128, 0, 0, 0, 97] ++ cexValue := by
    rw [BitCask.set_file]
    show ([] : Bytes) ++ encodeEntry [97] (some cexValue) = _
    rw [List.nil_append, encodeEntry, markerBytes, cexValue_length]
    rw [show encU32 (([97] : Bytes).length % 4294967296) = [0, 0, 0, 1] from by
      norm_num [encU32]]
    rw [show encU32 (2147483648 % 4294967296) = [128, 0, 0, 0] from by
      norm_num [encU32]]
    rfl
  have hflen : (([0, 0, 0, 1, 128, 0, 0, 0, 97] : Bytes) ++ cexValue).length =
      2147483657 := by
    rw [List.length_append, cexValue_length]
    norm_num
  have hbefore : (runOps BitCask.empty [Op.set [97] cexValue]).get [97] =
      some (some cexValue) := by
    rw [hdb]
    refine BitCask.get_some_of _ [97] 9 2147483648 cexValue (by rw [hkd]; rfl) ?_
    rw [hfileE]
    unfold read_value readBytes
    rw [if_pos (by rw [hflen])]
    rw [show (([0, 0, 0, 1, 128, 0, 0, 0, 97] : Bytes) ++ cexValue).drop 9 =
      cexValue from rfl]
    rw [List.take_of_length_le (by rw [cexValue_length])]
  -- the reopening scan: the entry parses as a tombstone, then the value
  -- bytes parse as a torn entry at offset 9
  have hre0 : readEntry (([0, 0, 0, 1, 128, 0, 0, 0, 97] : Bytes) ++ cexValue) 0 =
      some ([97], 9, none) := by
    have hsplit : ([0, 0, 0, 1, 128, 0, 0, 0, 97] : Bytes) ++ cexValue =
        ([] : Bytes) ++ (encU32 (([97] : Bytes).length % 4294967296) ++
          (encU32 2147483648 ++ ([97] ++ cexValue))) := by
      rw [show encU32 (([97] : Bytes).length % 4294967296) = [0, 0, 0, 1] from by
        norm_num [encU32]]
      rw [show encU32 2147483648 = [128, 0, 0, 0] from by norm_num [encU32]]
      rfl
    rw [hsplit]
    exact readEntry_negative_marker [] [97] cexValue 2147483648
      (by norm_num) (by norm_num) (by norm_num)
  have h4 : readU32 (([0, 0, 0, 1, 128, 0, 0, 0, 97] : Bytes) ++ cexValue) 9 =
      some 4294967295 := rfl
  have hpeel : List.replicate 2147483644 (0 : Nat) =
      0 :: 0 :: 0 :: 0 :: List.replicate 2147483640 0 := by
    rw [show (2147483644 : Nat) = 4 + 2147483640 from by norm_num,
      List.replicate_add]
    rfl
  have h5 : readU32 (([0, 0, 0, 1, 128, 0, 0, 0, 97] : Bytes) ++ cexValue) 13 =
      some 0 := by
    unfold readU32
    rw [show (([0, 0, 0, 1, 128, 0, 0, 0, 97] : Bytes) ++ cexValue).drop 13 =
      List.replicate 2147483644 0 from rfl, hpeel]
  have h6 : readBytes (([0, 0, 0, 1, 128, 0, 0, 0, 97] : Bytes) ++ cexValue) 17
      4294967295 = none := by
    unfold readBytes
    rw [if_neg (by rw [hflen]; norm_num)]
  have hre9 : readEntry (([0, 0, 0, 1, 128, 0, 0, 0, 97] : Bytes) ++ cexValue) 9 =
      none := readEntry_none_of_key_eof _ 9 4294967295 0 h4 h5 h6
  have hloop : buildKeydirLoop
      (([0, 0, 0, 1, 128, 0, 0, 0, 97] : Bytes) ++ cexValue) 0 [] = ([], 9) := by
    rw [buildKeydirLoop_tombstone _ 0 [] [97] 9 (by rw [hflen]; norm_num) hre0]
    rw [show kdRemove [] [97] = [] from rfl]
    rw [buildKeydirLoop_torn _ 9 [] (by rw [hflen]; norm_num) hre9]
  have hafter : (BitCask.new ((runOps BitCask.empty [Op.set [97] cexValue]).file)).get
      [97] = some none := by
    rw [hdb, hfileE]
    refine BitCask.get_none_of _ [97] ?_
    rw [BitCask.new_keydir_of _ [] 9 hloop]
    rfl
  refine ⟨hbefore, hafter, ?_⟩
  intro hEq
  rw [hbefore, hafter] at hEq
  simp at hEq

/-! ### Compaction -/

/-- Engine well-formedness: the keydir is sorted, every record points at
value bytes inside the file, and every record satisfies the `u32`
entry-length bound.  Every state reached by well-formed operations or by
opening a well-formed log satisfies this. -/
def BitCask.Wf (db : BitCask) : Prop :=
  kdSorted db.keydir ∧
    ∀ e ∈ db.keydir, e.2.1 + e.2.2 ≤ db.file.length ∧
      8 + e.1.length + e.2.2 < 4294967296

/-- The file compaction writes: one non-tombstone entry per keydir record,
in keydir (ascending key) order, holding the value bytes the record points
at. -/
def compactFile (oldFile : Bytes) : List (Bytes × Nat × Nat) → Bytes
  | [] => []
  | e :: rest =>
      encodeEntry e.1 (some ((oldFile.drop e.2.1).take e.2.2)) ++
        compactFile oldFile rest

/-- The keydir compaction produces: the same records re-pointed into the new
file, whose entries start at `pos`. -/
def compactKd (pos : Nat) : List (Bytes × Nat × Nat) → KeyDir
  | [] => []
  | e :: rest =>
      (e.1, (pos + 8 + e.1.length, e.2.2)) ::
        compactKd (pos + 8 + e.1.length + e.2.2) rest

/-- Canonical entry sizes summed over a keydir. -/
def kdEntrySizeSum : List (Bytes × Nat × Nat) → Nat
  | [] => 0
  | e :: rest => 8 + e.1.length + e.2.2 + kdEntrySizeSum rest

theorem write_log_go_eq (oldFile : Bytes) (es : List (Bytes × Nat × Nat)) :
    ∀ (nf : Bytes) (nkd : KeyDir),
    (∀ e ∈ es, e.2.1 + e.2.2 ≤ oldFile.length ∧
      8 + e.1.length + e.2.2 < 4294967296) →
    (∀ a ∈ nkd, ∀ b ∈ es, bytesLt a.1 b.1 = true) →
    List.Pairwise (fun a b : Bytes × Nat × Nat => bytesLt a.1 b.1 = true) es →
    write_log_go oldFile es nf nkd =
      some (nf ++ compactFile oldFile es, nkd ++ compactKd nf.length es) := by
  induction es with
  | nil =>
    intro nf nkd _ _ _
    simp [write_log_go, compactFile, compactKd]
  | cons e rest ih =>
    intro nf nkd hb hlt hsort
    have hbe := hb e (by simp)
    have hrv : read_value oldFile e.2.1 e.2.2 =
        some ((oldFile.drop e.2.1).take e.2.2) := by
      unfold read_value readBytes
      rw [if_pos hbe.1]
    have hvlen : ((oldFile.drop e.2.1).take e.2.2).length = e.2.2 := by
      rw [List.length_take, List.length_drop]
      omega
    rw [write_log_go]
    simp only [hrv]
    have hwev : (write_entry nf e.1
        (some ((oldFile.drop e.2.1).take e.2.2))).2.1 +
          (write_entry nf e.1 (some ((oldFile.drop e.2.1).take e.2.2))).2.2 -
          e.2.2 = nf.length + 8 + e.1.length := by
      simp only [write_entry, valueBytes, hvlen]
      rw [Nat.mod_eq_of_lt (show e.1.length < 4294967296 by omega),
        Nat.mod_eq_of_lt (show e.2.2 < 4294967296 by omega),
        Nat.mod_eq_of_lt (show 4 + 4 + e.1.length + e.2.2 < 4294967296 by omega)]
      omega
    have hins : kdInsert nkd e.1 (nf.length + 8 + e.1.length, e.2.2) =
        nkd ++ [(e.1, (nf.length + 8 + e.1.length, e.2.2))] :=
      kdInsert_of_forall_lt _ (fun a ha => hlt a ha e (by simp))
    have hfst : (write_entry nf e.1
        (some ((oldFile.drop e.2.1).take e.2.2))).1 =
        nf ++ encodeEntry e.1 (some ((oldFile.drop e.2.1).take e.2.2)) := rfl
    rw [hwev, hins, hfst]
    have hlen' : (nf ++ encodeEntry e.1
        (some ((oldFile.drop e.2.1).take e.2.2))).length =
        nf.length + 8 + e.1.length + e.2.2 := by
      rw [List.length_append, length_encodeEntry]
      simp only [entrySize, valueBytes, hvlen]
      omega
    have hih := ih (nf ++ encodeEntry e.1 (some ((oldFile.drop e.2.1).take e.2.2)))
      (nkd ++ [(e.1, (nf.length + 8 + e.1.length, e.2.2))])
      (fun e' he' => hb e' (by simp [he']))
      (by
        intro a ha b hbmem
        rcases List.mem_append.mp ha with ha' | ha'
        · exact hlt a ha' b (by simp [hbmem])
        · have : a = (e.1, (nf.length + 8 + e.1.length, e.2.2)) := by
            simpa using ha'
          subst this
          exact (List.pairwise_cons.mp hsort).1 b hbmem)
      (List.pairwise_cons.mp hsort).2
    rw [hih, hlen']
    rw [compactFile, compactKd]
    rw [List.append_assoc, List.append_assoc]
    rfl

/-- Under well-formedness, `compact` succeeds and produces exactly the
compacted file and re-pointed keydir. -/
theorem compact_eq (db : BitCask) (h : BitCask.Wf db) :
    db.compact = some
      { file := compactFile db.file db.keydir,
        keydir := compactKd 0 db.keydir } := by
  unfold BitCask.compact write_log
  rw [write_log_go_eq db.file db.keydir [] [] h.2 (by intro a ha; cases ha) h.1]
  rfl

/-- The record-by-record correspondence between a keydir and its compacted
version: keys and value lengths agree, the new record points inside the new
file, and both records read back the same value bytes. -/
theorem compact_forall₂ (oldFile newFile : Bytes) :
    ∀ (es : List (Bytes × Nat × Nat)) (pre : Bytes),
    newFile = pre ++ compactFile oldFile es →
    (∀ e ∈ es, e.2.1 + e.2.2 ≤ oldFile.length) →
    List.Forall₂ (fun e e' : Bytes × Nat × Nat => e.1 = e'.1 ∧ e.2.2 = e'.2.2 ∧
        e'.2.1 + e'.2.2 ≤ newFile.length ∧
        read_value oldFile e.2.1 e.2.2 = read_value newFile e'.2.1 e'.2.2)
      es (compactKd pre.length es) := by
  intro es
  induction es with
  | nil => intro pre _ _; exact List.Forall₂.nil
  | cons e rest ih =>
    intro pre hnf hb
    have hbe := hb e (by simp)
    have hvlen : ((oldFile.drop e.2.1).take e.2.2).length = e.2.2 := by
      rw [List.length_take, List.length_drop]
      omega
    have hpre' : (pre ++ encodeEntry e.1
        (some ((oldFile.drop e.2.1).take e.2.2))).length =
        pre.length + 8 + e.1.length + e.2.2 := by
      rw [List.length_append, length_encodeEntry]
      simp only [entrySize, valueBytes, hvlen]
      omega
    have hnf' : newFile = (pre ++ encodeEntry e.1
        (some ((oldFile.drop e.2.1).take e.2.2))) ++ compactFile oldFile rest := by
      rw [hnf, compactFile, List.append_assoc]
    have hlenN : pre.length + 8 + e.1.length + e.2.2 ≤ newFile.length := by
      rw [hnf', List.length_append, hpre']
      omega
    rw [compactKd]
    refine List.Forall₂.cons ⟨rfl, rfl, hlenN, ?_⟩ ?_
    · -- the value bytes read back identically from old and new file
      have hold : read_value oldFile e.2.1 e.2.2 =
          some ((oldFile.drop e.2.1).take e.2.2) := by
        unfold read_value readBytes
        rw [if_pos hbe]
      have hnew : read_value newFile (pre.length + 8 + e.1.length) e.2.2 =
          some ((oldFile.drop e.2.1).take e.2.2) := by
        unfold read_value readBytes
        rw [if_pos hlenN]
        have := encodeEntry_value_slice pre e.1
          ((oldFile.drop e.2.1).take e.2.2) (compactFile oldFile rest)
        rw [hvlen] at this
        rw [← hnf'] at this
        rw [this]
      rw [hold, hnew]
    · have := ih (pre ++ encodeEntry e.1
          (some ((oldFile.drop e.2.1).take e.2.2)))
        (by rw [hnf, compactFile, List.append_assoc])
        (fun e' he' => hb e' (by simp [he']))
      rw [hpre'] at this
      exact this

/-- `kdGet` transfers along the record correspondence. -/
theorem kdGet_of_forall₂ (f f' : Bytes) (kd kd' : KeyDir)
    (h : List.Forall₂ (fun e e' : Bytes × Nat × Nat => e.1 = e'.1 ∧ e.2.2 = e'.2.2 ∧
        e'.2.1 + e'.2.2 ≤ f'.length ∧
        read_value f e.2.1 e.2.2 = read_value f' e'.2.1 e'.2.2) kd kd') (k : Bytes) :
    (kdGet kd k = none → kdGet kd' k = none) ∧
      (∀ p l, kdGet kd k = some (p, l) →
        ∃ p', kdGet kd' k = some (p', l) ∧
          read_value f p l = read_value f' p' l) := by
  induction h with
  | nil => exact ⟨fun _ => rfl, fun p l hh => by cases hh⟩
  | cons he htail ih =>
    rename_i e e' kd₀ kd₀'
    obtain ⟨hk, hl, _, hr⟩ := he
    constructor
    · intro hn
      rw [kdGet] at hn ⊢
      by_cases hek : e.1 = k
      · rw [if_pos hek] at hn; cases hn
      · rw [if_neg hek] at hn
        rw [if_neg (by rw [← hk]; exact hek)]
        exact ih.1 hn
    · intro p l hs
      rw [kdGet] at hs ⊢
      by_cases hek : e.1 = k
      · rw [if_pos hek] at hs
        rw [if_pos (by rw [← hk]; exact hek)]
        have hp : e.2 = (p, l) := by
          simpa using hs
        refine ⟨e'.2.1, ?_, ?_⟩
        · have : e'.2.2 = l := by rw [← hl, hp]
          rw [← this]
        · rw [show p = e.2.1 from by rw [hp], show l = e.2.2 from by rw [hp]]
          rw [hr]
          rw [← hl]
      · rw [if_neg hek] at hs
        rw [if_neg (by rw [← hk]; exact hek)]
        exact ih.2 p l hs

/-- `scan` output transfers along the record correspondence. -/
theorem scan_of_forall₂ (f f' : Bytes) (kd kd' : KeyDir)
    (h : List.Forall₂ (fun e e' : Bytes × Nat × Nat => e.1 = e'.1 ∧ e.2.2 = e'.2.2 ∧
        e'.2.1 + e'.2.2 ≤ f'.length ∧
        read_value f e.2.1 e.2.2 = read_value f' e'.2.1 e'.2.2) kd kd')
    (lo hi : ScanBound) :
    (BitCask.mk f' kd').scan lo hi = (BitCask.mk f kd).scan lo hi := by
  induction h with
  | nil => rfl
  | cons he htail ih =>
    rename_i e e' kd₀ kd₀'
    obtain ⟨hk, hl, _, hr⟩ := he
    unfold BitCask.scan at ih ⊢
    simp only [List.filter_cons]
    rw [← hk]
    by_cases hin : (lowerOk lo e.1 && upperOk hi e.1) = true
    · rw [if_pos hin, if_pos hin]
      simp only [List.map_cons]
      rw [ih, hr, hk]
    · rw [if_neg hin, if_neg hin]
      exact ih

theorem map_fst_compactKd : ∀ (es : List (Bytes × Nat × Nat)) (pos : Nat),
    (compactKd pos es).map Prod.fst = es.map Prod.fst := by
  intro es
  induction es with
  | nil => intro pos; rfl
  | cons e rest ih =>
    intro pos
    rw [compactKd, List.map_cons, List.map_cons, ih]

theorem kdSorted_iff_map (kd : KeyDir) :
    kdSorted kd ↔
      (kd.map Prod.fst).Pairwise (fun a b : Bytes => bytesLt a b = true) := by
  unfold kdSorted
  rw [List.pairwise_map]

theorem compactKd_sorted (es : List (Bytes × Nat × Nat)) (pos : Nat)
    (h : kdSorted es) : kdSorted (compactKd pos es) := by
  rw [kdSorted_iff_map, map_fst_compactKd, ← kdSorted_iff_map]
  exact h

theorem compactFile_length (f : Bytes) : ∀ (es : List (Bytes × Nat × Nat)),
    (∀ e ∈ es, e.2.1 + e.2.2 ≤ f.length) →
    (compactFile f es).length = kdEntrySizeSum es := by
  intro es
  induction es with
  | nil => intro _; rfl
  | cons e rest ih =>
    intro hb
    rw [compactFile, List.length_append, length_encodeEntry, kdEntrySizeSum,
      ih (fun e' he' => hb e' (by simp [he']))]
    have hbe := hb e (by simp)
    simp only [entrySize, valueBytes, List.length_take, List.length_drop]
    omega

theorem foldl_live_eq (es : List (Bytes × Nat × Nat)) : ∀ acc : Nat,
    es.foldl (fun size e => size + 4 + 4 + e.1.length + e.2.2) acc =
      acc + kdEntrySizeSum es := by
  induction es with
  | nil => intro acc; simp [kdEntrySizeSum]
  | cons e rest ih =>
    intro acc
    rw [List.foldl_cons, ih, kdEntrySizeSum]
    omega

theorem kdEntrySizeSum_of_forall₂ {f f' : Bytes} : ∀ {kd kd' : KeyDir},
    List.Forall₂ (fun e e' : Bytes × Nat × Nat => e.1 = e'.1 ∧ e.2.2 = e'.2.2 ∧
        e'.2.1 + e'.2.2 ≤ f'.length ∧
        read_value f e.2.1 e.2.2 = read_value f' e'.2.1 e'.2.2) kd kd' →
    kdEntrySizeSum kd' = kdEntrySizeSum kd := by
  intro kd kd' h
  induction h with
  | nil => rfl
  | cons he htail ih =>
    obtain ⟨hk, hl, -, -⟩ := he
    rw [kdEntrySizeSum, kdEntrySizeSum, ih, hk, hl]

theorem compactKd_bounds : ∀ (es : List (Bytes × Nat × Nat)) (pos : Nat),
    (∀ e ∈ es, 8 + e.1.length + e.2.2 < 4294967296) →
    ∀ e' ∈ compactKd pos es,
      e'.2.1 + e'.2.2 ≤ pos + kdEntrySizeSum es ∧
        8 + e'.1.length + e'.2.2 < 4294967296 := by
  intro es
  induction es with
  | nil => intro pos _ e' he'; cases he'
  | cons e rest ih =>
    intro pos hb e' he'
    rw [compactKd, List.mem_cons] at he'
    rcases he' with he' | he'
    · subst he'
      have hbe := hb e (by simp)
      rw [kdEntrySizeSum]
      refine ⟨?_, ?_⟩
      · show pos + 8 + e.1.length + e.2.2 ≤
          pos + (8 + e.1.length + e.2.2 + kdEntrySizeSum rest)
        omega
      · show 8 + e.1.length + e.2.2 < 4294967296
        exact hbe
    · have := ih (pos + 8 + e.1.length + e.2.2)
        (fun e₀ h₀ => hb e₀ (by simp [h₀])) e' he'
      rw [kdEntrySizeSum]
      omega

/-- `get` output transfers along the record correspondence. -/
theorem get_of_forall₂ (f f' : Bytes) (kd kd' : KeyDir)
    (h : List.Forall₂ (fun e e' : Bytes × Nat × Nat => e.1 = e'.1 ∧ e.2.2 = e'.2.2 ∧
        e'.2.1 + e'.2.2 ≤ f'.length ∧
        read_value f e.2.1 e.2.2 = read_value f' e'.2.1 e'.2.2) kd kd')
    (k : Bytes) : (BitCask.mk f' kd').get k = (BitCask.mk f kd).get k := by
  obtain ⟨hn, hs⟩ := kdGet_of_forall₂ f f' kd kd' h k
  unfold BitCask.get
  cases hg : kdGet kd k with
  | none => simp only [hn hg, hg]
  | some pl =>
    obtain ⟨p', hget', hread⟩ := hs pl.1 pl.2 (by rw [hg])
    simp only [hget', hg, ← hread]

/-- The compacted engine, as a function of the current state. -/
def compacted (db : BitCask) : BitCask :=
  { file := compactFile db.file db.keydir, keydir := compactKd 0 db.keydir }

theorem compact_forall₂_self (db : BitCask) (h : BitCask.Wf db) :
    List.Forall₂ (fun e e' : Bytes × Nat × Nat => e.1 = e'.1 ∧ e.2.2 = e'.2.2 ∧
        e'.2.1 + e'.2.2 ≤ (compacted db).file.length ∧
        read_value db.file e.2.1 e.2.2 =
          read_value (compacted db).file e'.2.1 e'.2.2)
      db.keydir (compacted db).keydir := by
  have := compact_forall₂ db.file (compactFile db.file db.keydir) db.keydir []
    (by rw [List.nil_append]) (fun e he => (h.2 e he).1)
  simpa [compacted] using this

theorem Wf_compacted (db : BitCask) (h : BitCask.Wf db) :
    BitCask.Wf (compacted db) := by
  refine ⟨compactKd_sorted _ _ h.1, ?_⟩
  intro e' he'
  have hb := compactKd_bounds db.keydir 0
    (fun e he => (h.2 e he).2) e' he'
  have hlen : (compactFile db.file db.keydir).length =
      kdEntrySizeSum db.keydir :=
    compactFile_length db.file db.keydir (fun e he => (h.2 e he).1)
  constructor
  · show e'.2.1 + e'.2.2 ≤ (compactFile db.file db.keydir).length
    rw [hlen]
    omega
  · exact hb.2

instance (db : BitCask) : Decidable (BitCask.Wf db) := by
  unfold BitCask.Wf kdSorted
  infer_instance

/-- C4: for every well-formed engine state, `compact` succeeds and leaves the
results of all `get` and `scan` operations unchanged, and running `compact` a
second time immediately afterwards leaves the log file length unchanged. -/
theorem bitcask_compact_idempotent (db : BitCask) (h : BitCask.Wf db) :
    ∃ db', db.compact = some db' ∧
      (∀ k, db'.get k = db.get k) ∧
      (∀ lo hi, db'.scan lo hi = db.scan lo hi) ∧
      ∃ db'', db'.compact = some db'' ∧ db''.file.length = db'.file.length := by
  have hf2 := compact_forall₂_self db h
  refine ⟨compacted db, compact_eq db h, ?_, ?_, ?_⟩
  · intro k
    exact get_of_forall₂ db.file (compacted db).file db.keydir
      (compacted db).keydir hf2 k
  · intro lo hi
    exact scan_of_forall₂ db.file (compacted db).file db.keydir
      (compacted db).keydir hf2 lo hi
  · refine ⟨compacted (compacted db), compact_eq _ (Wf_compacted db h), ?_⟩
    show (compactFile (compacted db).file (compacted db).keydir).length =
      (compacted db).file.length
    rw [compactFile_length _ _ (fun e he => ((Wf_compacted db h).2 e he).1),
      kdEntrySizeSum_of_forall₂ hf2]
    exact (compactFile_length db.file db.keydir
      (fun e he => (h.2 e he).1)).symm

theorem bitcask_compact_idempotent_witness :
    BitCask.Wf (BitCask.mk (List.replicate 10 3) [([1], (9, 1))]) ∧
      ∃ db', (BitCask.mk (List.replicate 10 3) [([1], (9, 1))]).compact = some db' ∧
        (∀ k, db'.get k = (BitCask.mk (List.replicate 10 3) [([1], (9, 1))]).get k) ∧
        (∀ lo hi, db'.scan lo hi =
          (BitCask.mk (List.replicate 10 3) [([1], (9, 1))]).scan lo hi) ∧
        ∃ db'', db'.compact = some db'' ∧ db''.file.length = db'.file.length :=
  ⟨by decide, bitcask_compact_idempotent _ (by decide)⟩

/-- C5: after a successful `compact` on a well-formed state, the log file is
exactly the concatenation, in ascending (keydir) key order, of one
non-tombstone entry per keydir key holding that key's live value
(`compactFile`); the rebuilt keydir has the same keys in the same sorted
order, every record points inside the new file, and the live size computed by
`compute_sizes` equals the total file length. -/
theorem bitcask_compact_layout (db : BitCask) (h : BitCask.Wf db) :
    ∃ db', db.compact = some db' ∧
      db'.file = compactFile db.file db.keydir ∧
      db'.keydir.map Prod.fst = db.keydir.map Prod.fst ∧
      kdSorted db'.keydir ∧
      (∀ e ∈ db'.keydir, e.2.1 + e.2.2 ≤ db'.file.length) ∧
      compute_sizes db' = (db'.file.length, db'.file.length) := by
  have hf2 := compact_forall₂_self db h
  refine ⟨compacted db, compact_eq db h, rfl, ?_, ?_, ?_, ?_⟩
  · exact map_fst_compactKd db.keydir 0
  · exact compactKd_sorted db.keydir 0 h.1
  · intro e he
    exact ((Wf_compacted db h).2 e he).1
  · have hlen : (compacted db).file.length = kdEntrySizeSum db.keydir :=
      compactFile_length db.file db.keydir (fun e he => (h.2 e he).1)
    unfold compute_sizes
    rw [foldl_live_eq, Nat.zero_add, kdEntrySizeSum_of_forall₂ hf2, hlen]

theorem bitcask_compact_layout_witness :
    BitCask.Wf (BitCask.mk (List.replicate 12 7) [([2], (10, 2))]) ∧
      ∃ db', (BitCask.mk (List.replicate 12 7) [([2], (10, 2))]).compact = some db' ∧
        db'.file = compactFile (List.replicate 12 7) [([2], (10, 2))] ∧
        db'.keydir.map Prod.fst = [([2], (10, 2))].map (Prod.fst) ∧
        kdSorted db'.keydir ∧
        (∀ e ∈ db'.keydir, e.2.1 + e.2.2 ≤ db'.file.length) ∧
        compute_sizes db' = (db'.file.length, db'.file.length) :=
  ⟨by decide, bitcask_compact_layout _ (by decide)⟩

/-! ### Open-time compaction threshold (`BitCask::new_compact`) -/

/-- The compaction condition of `BitCask::new_compact`:
`garbage_bytes > 0 && garbage_ratio >= garbage_ratio_threshold`, with
`garbage_bytes = total_bytes - live_bytes` (u64 subtraction, here truncated
Nat subtraction) and the f64 division `garbage as f64 / total as f64`
modelled as exact rational division (0 when total = 0, where the Rust f64
quotient is NaN; in both models the conjunction is then false since
garbage = 0). -/
def should_compact (live total : Nat) (threshold : ℚ) : Bool :=
  decide (0 < total - live) &&
    decide (threshold ≤ ((total - live : Nat) : ℚ) / (total : ℚ))

/-- `BitCask::new_compact`: open normally, then compact when the garbage
condition holds. -/
def BitCask.new_compact (file : Bytes) (threshold : ℚ) : Option BitCask :=
  if should_compact (compute_sizes (BitCask.new file)).1
      (compute_sizes (BitCask.new file)).2 threshold
    then (BitCask.new file).compact
    else some (BitCask.new file)

theorem should_compact_iff (live total : Nat) (r : ℚ) :
    should_compact live total r = true ↔
      (0 < total ∧ 0 < total - live ∧
        r ≤ ((total - live : Nat) : ℚ) / (total : ℚ)) := by
  unfold should_compact
  simp only [Bool.and_eq_true, decide_eq_true_eq]
  constructor
  · rintro ⟨h1, h2⟩
    exact ⟨by omega, h1, h2⟩
  · rintro ⟨-, h1, h2⟩
    exact ⟨h1, h2⟩

/-- C6: `new_compact` opens normally and then compacts exactly when
total > 0, garbage = total − live > 0, and garbage / total ≥ threshold;
a threshold ≤ 0 forces compaction whenever any garbage exists, and a
threshold > 1 never triggers it. -/
theorem bitcask_new_compact_threshold (file : Bytes) (r : ℚ) :
    (BitCask.new_compact file r =
      if 0 < (compute_sizes (BitCask.new file)).2 ∧
          0 < (compute_sizes (BitCask.new file)).2 -
            (compute_sizes (BitCask.new file)).1 ∧
          r ≤ (((compute_sizes (BitCask.new file)).2 -
              (compute_sizes (BitCask.new file)).1 : Nat) : ℚ) /
            ((compute_sizes (BitCask.new file)).2 : ℚ)
        then (BitCask.new file).compact
        else some (BitCask.new file)) ∧
    (r ≤ 0 → ∀ live total : Nat, 0 < total - live →
      should_compact live total r = true) ∧
    (1 < r → ∀ live total : Nat, should_compact live total r = false) := by
  refine ⟨?_, ?_, ?_⟩
  · have h := should_compact_iff (compute_sizes (BitCask.new file)).1
      (compute_sizes (BitCask.new file)).2 r
    unfold BitCask.new_compact
    by_cases hb : should_compact (compute_sizes (BitCask.new file)).1
        (compute_sizes (BitCask.new file)).2 r = true
    · rw [if_pos hb, if_pos (h.mp hb)]
    · rw [if_neg hb, if_neg (fun hp => hb (h.mpr hp))]
  · intro hr live total hg
    rw [should_compact_iff]
    refine ⟨by omega, hg, hr.trans ?_⟩
    exact div_nonneg (Nat.cast_nonneg _) (Nat.cast_nonneg _)
  · intro hr live total
    by_contra hfalse
    rw [Bool.not_eq_false, should_compact_iff] at hfalse
    obtain ⟨ht, hg, hle⟩ := hfalse
    have htpos : (0 : ℚ) < (total : ℚ) := by exact_mod_cast ht
    have hgt : ((total - live : Nat) : ℚ) ≤ (total : ℚ) := by
      exact_mod_cast Nat.sub_le total live
    have hone : ((total - live : Nat) : ℚ) / (total : ℚ) ≤ 1 := by
      rw [div_le_one htpos]
      exact hgt
    linarith

theorem bitcask_new_compact_threshold_witness :
    should_compact 10 30 0 = true ∧ should_compact 10 30 2 = false :=
  ⟨(bitcask_new_compact_threshold [] 0).2.1 le_rfl 10 30 (by decide),
   (bitcask_new_compact_threshold [] 2).2.2 (by norm_num) 10 30⟩

/-! ### Failed appends (`set`/`delete` error handling) -/

/-- `Log::write_entry` with its I/O outcome injected: `none` is a normal
successful append; `some m` is an I/O failure after only the first `m` bytes
of the entry reached the file, in which case no (pos, len) is returned. -/
def write_entry_f (file key : Bytes) (value : Option Bytes) :
    Option Nat → Bytes × Option (Nat × Nat)
  | none => ((write_entry file key value).1, some (write_entry file key value).2)
  | some m => (file ++ (encodeEntry key value).take m, none)

/-- `BitCask::set` with the append outcome injected: the `?` on
`write_entry` returns the error before the keydir insert runs; the returned
Bool reports whether an error was returned. -/
def BitCask.set_f (db : BitCask) (key value : Bytes) (outcome : Option Nat) :
    BitCask × Bool :=
  match write_entry_f db.file key (some value) outcome with
  | (file', none) => ({ db with file := file' }, true)
  | (file', some pl) =>
      let value_len := value.length % 4294967296
      ({ file := file',
         keydir := kdInsert db.keydir key (pl.1 + pl.2 - value_len, value_len) },
       false)

/-- `BitCask::delete` with the append outcome injected. -/
def BitCask.delete_f (db : BitCask) (key : Bytes) (outcome : Option Nat) :
    BitCask × Bool :=
  match write_entry_f db.file key none outcome with
  | (file', none) => ({ db with file := file' }, true)
  | (file', some _) => ({ file := file', keydir := kdRemove db.keydir key }, false)

/-- C7: in `set` and `delete` the log append runs before the keydir update.
When the append fails, the error is returned and the keydir is left
completely unchanged, and any record lying inside the old file still reads
the same bytes (the failed append only added bytes at the end); when the
append succeeds, the fallible operations coincide with `set`/`delete`. -/
theorem bitcask_append_error_leaves_keydir (db : BitCask) (key value : Bytes)
    (m : Nat) :
    (db.set_f key value (some m)).1.keydir = db.keydir ∧
    (db.set_f key value (some m)).2 = true ∧
    (db.delete_f key (some m)).1.keydir = db.keydir ∧
    (db.delete_f key (some m)).2 = true ∧
    (db.set_f key value none).1 = db.set key value ∧
    (db.delete_f key none).1 = db.delete key ∧
    (∀ p l, p + l ≤ db.file.length →
      read_value (db.set_f key value (some m)).1.file p l =
        read_value db.file p l) ∧
    (∀ p l, p + l ≤ db.file.length →
      read_value (db.delete_f key (some m)).1.file p l =
        read_value db.file p l) := by
  refine ⟨rfl, rfl, rfl, rfl, rfl, rfl, ?_, ?_⟩
  · intro p l hpl
    show readBytes (db.file ++ (encodeEntry key (some value)).take m) p l =
      readBytes db.file p l
    exact readBytes_append_of_le db.file _ p l hpl
  · intro p l hpl
    show readBytes (db.file ++ (encodeEntry key none).take m) p l =
      readBytes db.file p l
    exact readBytes_append_of_le db.file _ p l hpl

theorem bitcask_append_error_witness :
    ((BitCask.mk [9, 9, 9, 9] [([1], (0, 2))]).set_f [1] [5] (some 3)).1.keydir =
        [([1], (0, 2))] ∧
      read_value
          ((BitCask.mk [9, 9, 9, 9] [([1], (0, 2))]).set_f [1] [5] (some 3)).1.file
          0 2 =
        read_value [9, 9, 9, 9] 0 2 :=
  ⟨(bitcask_append_error_leaves_keydir (BitCask.mk [9, 9, 9, 9] [([1], (0, 2))])
      [1] [5] 3).1,
   (bitcask_append_error_leaves_keydir (BitCask.mk [9, 9, 9, 9] [([1], (0, 2))])
      [1] [5] 3).2.2.2.2.2.2.1 0 2 (by decide)⟩

/-! ### Entry size arithmetic (`Log::write_entry`) -/

/-- C8: whenever the u32 entry length `4 + 4 + key_len + value_len` does not
overflow, `write_entry` returns the old file length as the entry offset and
`8 + key_length + value_length` (resp. `8 + key_length` for a tombstone) as
the entry length; the value bytes sit at `offset + 8 + key_length`, and that
position equals `offset + length - value_len`, the expression `set` records
in the keydir. -/
theorem bitcask_write_entry_size (file key value : Bytes)
    (h : 8 + key.length + value.length < 4294967296) :
    (write_entry file key (some value)).2.2 = 8 + key.length + value.length ∧
    (write_entry file key none).2.2 = 8 + key.length ∧
    (write_entry file key (some value)).2.1 = file.length ∧
    read_value (write_entry file key (some value)).1
      (file.length + 8 + key.length) value.length = some value ∧
    (write_entry file key (some value)).2.1 +
        (write_entry file key (some value)).2.2 - value.length % 4294967296 =
      file.length + 8 + key.length := by
  refine ⟨?_, ?_, rfl, ?_, ?_⟩
  · show (4 + 4 + key.length % 4294967296 + value.length % 4294967296) %
        4294967296 = 8 + key.length + value.length
    omega
  · show (4 + 4 + key.length % 4294967296 + 0 % 4294967296) % 4294967296 =
      8 + key.length
    omega
  · have hsplit : file ++ encodeEntry key (some value) =
        (file ++ encU32 (key.length % 4294967296) ++ markerBytes (some value) ++
          key) ++ (value ++ []) := by
      simp [encodeEntry, valueBytes, List.append_assoc]
    have hlen2 : (file ++ encU32 (key.length % 4294967296) ++
        markerBytes (some value) ++ key).length = file.length + 8 + key.length := by
      simp [List.length_append, markerBytes, encU32]
      omega
    show readBytes (file ++ encodeEntry key (some value))
      (file.length + 8 + key.length) value.length = some value
    rw [hsplit, ← hlen2]
    exact readBytes_at _ value []
  · show file.length +
        (4 + 4 + key.length % 4294967296 + value.length % 4294967296) %
          4294967296 - value.length % 4294967296 =
      file.length + 8 + key.length
    omega

theorem bitcask_write_entry_size_witness :
    8 + ([1] : Bytes).length + ([2, 3] : Bytes).length < 4294967296 ∧
      ((write_entry [5] [1] (some [2, 3])).2.2 =
          8 + ([1] : Bytes).length + ([2, 3] : Bytes).length ∧
        (write_entry [5] [1] none).2.2 = 8 + ([1] : Bytes).length ∧
        (write_entry [5] [1] (some [2, 3])).2.1 = ([5] : Bytes).length ∧
        read_value (write_entry [5] [1] (some [2, 3])).1
          (([5] : Bytes).length + 8 + ([1] : Bytes).length)
          ([2, 3] : Bytes).length = some [2, 3] ∧
        (write_entry [5] [1] (some [2, 3])).2.1 +
            (write_entry [5] [1] (some [2, 3])).2.2 -
              ([2, 3] : Bytes).length % 4294967296 =
          ([5] : Bytes).length + 8 + ([1] : Bytes).length) :=
  ⟨by decide, bitcask_write_entry_size [5] [1] [2, 3] (by decide)⟩

/-- A key (also reused as a value) of the maximum length the claim admits,
2^31 − 1 bytes. -/
def cexKey8 : Bytes := List.replicate 2147483647 0

theorem cexKey8_length : cexKey8.length = 2147483647 := by
  rw [cexKey8]
  exact List.length_replicate 2147483647 0

theorem write_entry_len_eq (file key : Bytes) (value : Option Bytes) :
    (write_entry file key value).2.2 =
      (4 + 4 + key.length % 4294967296 +
        (valueBytes value).length % 4294967296) % 4294967296 := rfl

theorem write_entry_overflow_aux (k : Bytes) (hk : k.length = 2147483647) :
    k.length ≤ 2147483647 ∧
      (write_entry [] k (some k)).2.2 = 6 ∧
      (write_entry [] k (some k)).2.2 ≠ 8 + k.length + k.length := by
  have h6 : (write_entry [] k (some k)).2.2 = 6 := by
    rw [write_entry_len_eq]
    simp only [valueBytes]
    rw [hk]
  refine ⟨by omega, h6, ?_⟩
  rw [h6, hk]
  omega

theorem bitcask_write_entry_overflow_counterexample :
    cexKey8.length ≤ 2147483647 ∧
      (write_entry [] cexKey8 (some cexKey8)).2.2 = 6 ∧
      (write_entry [] cexKey8 (some cexKey8)).2.2 ≠
        8 + cexKey8.length + cexKey8.length :=
  write_entry_overflow_aux cexKey8 cexKey8_length

/-! ### Scan ranges and iteration order -/

instance (kd : KeyDir) : Decidable (kdSorted kd) := by
  unfold kdSorted
  infer_instance

theorem map_fst_filter_keys (P : Bytes → Bool) : ∀ kd : KeyDir,
    ((kd.filter fun e => P e.1).map Prod.fst) = (kd.map Prod.fst).filter P := by
  intro kd
  induction kd with
  | nil => rfl
  | cons e rest ih =>
    rw [List.filter_cons, List.map_cons, List.filter_cons]
    by_cases hp : P e.1 = true
    · rw [if_pos hp, List.map_cons, ih, if_pos hp]
    · rw [if_neg hp, if_neg hp, ih]

/-- C9: over a sorted keydir, a scan yields exactly the keydir keys inside
the range, in ascending lexicographic order, and reverse iteration (the
reversed scan) yields the same keys in descending order. -/
theorem bitcask_scan_range (db : BitCask) (h : kdSorted db.keydir)
    (lo hi : ScanBound) :
    ((db.scan lo hi).map Prod.fst =
      (db.keydir.map Prod.fst).filter fun k => lowerOk lo k && upperOk hi k) ∧
    ((db.scan lo hi).map Prod.fst).Pairwise (fun a b => bytesLt a b = true) ∧
    ((db.scan lo hi).reverse.map Prod.fst =
      ((db.keydir.map Prod.fst).filter fun k =>
        lowerOk lo k && upperOk hi k).reverse) ∧
    ((db.scan lo hi).reverse.map Prod.fst).Pairwise
      (fun a b => bytesLt b a = true) := by
  have h1 : (db.scan lo hi).map Prod.fst =
      (db.keydir.map Prod.fst).filter fun k => lowerOk lo k && upperOk hi k := by
    unfold BitCask.scan
    rw [List.map_map]
    exact map_fst_filter_keys (fun k => lowerOk lo k && upperOk hi k) db.keydir
  have h2 : ((db.scan lo hi).map Prod.fst).Pairwise
      (fun a b => bytesLt a b = true) := by
    rw [h1]
    exact ((kdSorted_iff_map db.keydir).mp h).filter _
  refine ⟨h1, h2, ?_, ?_⟩
  · rw [List.map_reverse, h1]
  · rw [List.map_reverse, List.pairwise_reverse]
    exact h2

theorem bitcask_scan_range_witness :
    kdSorted [([1], (0, 1)), ([2], (1, 1))] ∧
      (((BitCask.mk [7, 8] [([1], (0, 1)), ([2], (1, 1))]).scan
            ScanBound.unbounded ScanBound.unbounded).map Prod.fst =
        (([([1], (0, 1)), ([2], (1, 1))] : KeyDir).map Prod.fst).filter fun k =>
          lowerOk ScanBound.unbounded k && upperOk ScanBound.unbounded k) ∧
      (((BitCask.mk [7, 8] [([1], (0, 1)), ([2], (1, 1))]).scan
            ScanBound.unbounded ScanBound.unbounded).map Prod.fst).Pairwise
        (fun a b => bytesLt a b = true) ∧
      (((BitCask.mk [7, 8] [([1], (0, 1)), ([2], (1, 1))]).scan
            ScanBound.unbounded ScanBound.unbounded).reverse.map Prod.fst =
        ((([([1], (0, 1)), ([2], (1, 1))] : KeyDir).map Prod.fst).filter fun k =>
          lowerOk ScanBound.unbounded k && upperOk ScanBound.unbounded k).reverse) ∧
      (((BitCask.mk [7, 8] [([1], (0, 1)), ([2], (1, 1))]).scan
            ScanBound.unbounded ScanBound.unbounded).reverse.map Prod.fst).Pairwise
        (fun a b => bytesLt b a = true) :=
  ⟨by decide,
   bitcask_scan_range (BitCask.mk [7, 8] [([1], (0, 1)), ([2], (1, 1))])
     (by decide) ScanBound.unbounded ScanBound.unbounded⟩

/-! ### Negative markers in the open-time scan -/

/-- C10: during the open-time scan, an entry whose marker is any value in
[2^31, 2^32) — that is, any negative `i32`, not only −1 — parses as a
tombstone: the loop removes the key from the keydir and continues at
`pos + 8 + key_len`, directly after the key bytes, expecting no value
bytes. -/
theorem bitcask_negative_marker_tombstone (F key G : Bytes) (m : Nat)
    (kd : KeyDir) (hk : key.length < 4294967296) (hm1 : 2147483648 ≤ m)
    (hm2 : m < 4294967296) :
    readEntry (F ++ (encU32 (key.length % 4294967296) ++
        (encU32 m ++ (key ++ G)))) F.length =
      some (key, F.length + 8 + key.length, none) ∧
    buildKeydirLoop (F ++ (encU32 (key.length % 4294967296) ++
        (encU32 m ++ (key ++ G)))) F.length kd =
      buildKeydirLoop (F ++ (encU32 (key.length % 4294967296) ++
        (encU32 m ++ (key ++ G)))) (F.length + 8 + key.length)
        (kdRemove kd key) := by
  have hre := readEntry_negative_marker F key G m hk hm1 hm2
  refine ⟨hre, ?_⟩
  have hlt : F.length < (F ++ (encU32 (key.length % 4294967296) ++
      (encU32 m ++ (key ++ G)))).length := by
    simp [List.length_append, encU32]
  exact buildKeydirLoop_tombstone _ F.length kd key
    (F.length + 8 + key.length) hlt hre

theorem bitcask_negative_marker_tombstone_witness :
    readEntry (([] : Bytes) ++ (encU32 (([1] : Bytes).length % 4294967296) ++
        (encU32 2147483655 ++ ([1] ++ [])))) ([] : Bytes).length =
      some ([1], ([] : Bytes).length + 8 + ([1] : Bytes).length, none) ∧
    buildKeydirLoop (([] : Bytes) ++ (encU32 (([1] : Bytes).length % 4294967296) ++
        (encU32 2147483655 ++ ([1] ++ [])))) ([] : Bytes).length
        [([1], (0, 1))] =
      buildKeydirLoop (([] : Bytes) ++ (encU32 (([1] : Bytes).length % 4294967296) ++
        (encU32 2147483655 ++ ([1] ++ []))))
        (([] : Bytes).length + 8 + ([1] : Bytes).length)
        (kdRemove [([1], (0, 1))] [1]) :=
  bitcask_negative_marker_tombstone [] [1] [] 2147483655 [([1], (0, 1))]
    (by decide) (by decide) (by decide)

/-! ### Well-formedness is an invariant of bounded operation -/

theorem Wf_applyOp (db : BitCask) (op : Op) (h : BitCask.Wf db)
    (hop : op.wfMem) : BitCask.Wf (applyOp db op) := by
  refine ⟨kdSorted_applyOp op h.1 hop, ?_⟩
  cases op with
  | set k v =>
    intro e he
    rw [show (applyOp db (Op.set k v)).keydir = (db.set k v).keydir from rfl,
      BitCask.set_keydir db k v hop] at he
    rw [show (applyOp db (Op.set k v)).file = (db.set k v).file from rfl,
      BitCask.set_file, List.length_append, length_encodeEntry]
    rcases mem_kdInsert he with hmem | heq
    · have hb := h.2 e hmem
      exact ⟨by omega, hb.2⟩
    · subst heq
      refine ⟨?_, ?_⟩
      · show db.file.length + 8 + k.length + v.length ≤
          db.file.length + (8 + k.length + v.length)
        omega
      · show 8 + k.length + v.length < 4294967296
        exact hop
  | del k =>
    intro e he
    rw [show (applyOp db (Op.del k)).keydir = kdRemove db.keydir k from rfl] at he
    have hb := h.2 e ((kdRemove_sublist db.keydir k).subset he)
    rw [show (applyOp db (Op.del k)).file = (db.delete k).file from rfl,
      BitCask.delete_file, List.length_append]
    exact ⟨by omega, hb.2⟩

theorem Wf_empty : BitCask.Wf BitCask.empty := by
  refine ⟨List.Pairwise.nil, ?_⟩
  intro e he
  cases he

/-- Every state reached by size-bounded operations is well formed, so the
hypotheses of the compaction theorems hold in every such state. -/
theorem Wf_runOps (ops : List Op) : ∀ db : BitCask,
    BitCask.Wf db → (∀ op ∈ ops, op.wfMem) → BitCask.Wf (runOps db ops) := by
  induction ops with
  | nil => intro db h _; exact h
  | cons op rest ih =>
    intro db h hops
    exact ih (applyOp db op) (Wf_applyOp db op h (hops op (by simp)))
      (fun o ho => hops o (by simp [ho]))
